import Mathlib

/-!
Verification development for the QuandeLibC `fockstate` engine
(`src/fockstate.cpp`).

The C++ class `fockstate` stores `_m : int` (mode count), `_n : int`
(particle count) and a raw buffer `_code` of `_n` bytes of type `char`,
each byte holding the narrowed value `char(mode + 'A')` for one particle,
in non-decreasing byte order.  `_code == nullptr` encodes the Undefined
state; a shared zero-length sentinel buffer (`n0_buffer`) encodes an
empty-but-defined state.

Shallow embedding choices:
* a buffer byte is a mathematical integer in `[-128, 127]`: plain `char`
  is taken as the signed 8-bit twos-complement type of the x86-64 Linux
  ABI the library targets (its signedness is implementation-defined in
  C++), and every store through `char` goes through the narrowing
  `toByte`, which wraps — `toByte (63 + 65) = -128`, so the byte for
  mode 63 is not `63 + 'A'`.  Comparisons promote the byte to `int`
  (no wrap), exactly as in the source.
* the buffer is `Option (List Int)` of such bytes: `none` models the
  null buffer, `some bs` a present buffer.
* C++ exceptions (`std::invalid_argument`, `std::out_of_range`) are
  modelled with `Except fserr`.
* all buffers allocated by the source have exactly `_n` initialised
  bytes; the value class invariant (`length code = n`, sorted bytes,
  every byte decoding to a mode in `[0, m)`) is stated as `fswf` below.
  Source behaviour that dereferences a null buffer or reads past an
  allocation is undefined behaviour in C++ and outside the model.
-/

/-- The narrowing conversion `char(v)` for signed 8-bit twos-complement
`char`: wrap `v` into `[-128, 127]`. -/
def toByte (v : Int) : Int := (v + 128) % 256 - 128

structure fockstate where
  m : Nat
  n : Nat
  code : Option (List Int)
deriving DecidableEq

/-- Error kinds thrown by `fockstate.cpp`: `std::invalid_argument` and
`std::out_of_range`. -/
inductive fserr where
  | invalidArgument (msg : String)
  | outOfRange (msg : String)
deriving DecidableEq

deriving instance DecidableEq for Except

/-- `fockstate::fockstate()` — default constructor: `_m = 0`, `_n = 0`,
`_code = nullptr` (Undefined). -/
def fsDefault : fockstate := ⟨0, 0, none⟩

/-- `fockstate::fockstate(int m)` — mode count known, zero particles,
`_code = n0_buffer` (Empty-defined). -/
def fsNdef (m : Nat) : fockstate := ⟨m, 0, some []⟩

/-- `fockstate::fockstate(int m, int n)` — `memset(_code, 'A', n)`: all `n`
particles in mode `0`, byte `65` (for `n = 0` the shared empty sentinel,
the same value here). -/
def mkFock (m n : Nat) : fockstate := ⟨m, n, some (List.replicate n (65 : Int))⟩

/-- `fockstate::copy()` / the copy constructor: a fresh owned buffer with
identical contents; in the value model, the identical value.  Assignment
(`operator=`) produces the same value. -/
def fsCopy (fs : fockstate) : fockstate := fs

/-- The buffer-building loop of `_set_fs_vect` / `_parse_str`, started at
mode `i`: `for (i..) for (j < fs_vect[i]) _code[k++] = char(i + 'A')` —
note the narrowing to `char` on the store. -/
def codeOfVectFrom : Nat → List Nat → List Int
  | _, [] => []
  | i, c :: v => List.replicate c (toByte ((i : Int) + 65)) ++ codeOfVectFrom (i + 1) v

/-- The particle buffer built from an occupation vector. -/
def codeOfVect (v : List Nat) : List Int := codeOfVectFrom 0 v

/-- `fockstate::fockstate(const std::vector<int> &fs_vect)`:
`_m = fs_vect.size()`, `_n = sum(fs_vect)`, buffer from `_set_fs_vect`. -/
def fockstateOfVect (v : List Nat) : fockstate :=
  ⟨v.length, v.sum, some (codeOfVect v)⟩

/-- `fockstate::operator==`.  The source compares `_m`, `_n`, then returns
true when both `_m` are zero, then compares buffer presence, then the `_n`
buffer bytes (the whole allocation). -/
def fsEq (a b : fockstate) : Bool :=
  if a.m ≠ b.m ∨ a.n ≠ b.n then false
  else if a.m = 0 ∧ b.m = 0 then true
  else
    match a.code, b.code with
    | none, none => true
    | some la, some lb => decide (la = lb)
    | _, _ => false

/-- The backward scan of `fockstate::operator++`: find the last byte that
differs from the `int` value `_m - 1 + 'A'` (= `m + 64`, computed without
wrap), bump it through `char` arithmetic (`_code[i] += 1` narrows, hence
`toByte`), and copy the new byte over every later position; `none` when
every byte equals `m + 64` (which a stored byte, lying in `[-128, 127]`,
can only do when `m ≤ 63`). -/
def succCode (m : Nat) : List Int → Option (List Int)
  | [] => none
  | b :: l =>
    match succCode m l with
    | some l' => some (b :: l')
    | none =>
      if b = (m : Int) + 64 then none
      else some (toByte (b + 1) :: l.map (fun _ => toByte (b + 1)))

/-- `fockstate::operator++` — throws on an Undefined state; on exhaustion
frees the buffer and sets `_code = nullptr`, leaving `_m` and `_n`
untouched. -/
def fsSucc (fs : fockstate) : Except fserr fockstate :=
  match fs.code with
  | none => .error (.invalidArgument ("cannot make operation on ndef-state"))
  | some l =>
    match succCode fs.m l with
    | none => .ok ⟨fs.m, fs.n, none⟩
    | some l' => .ok ⟨fs.m, fs.n, some l'⟩

/-- The loop `while (c) { ++fs; c--; }` shared by `operator+` and
`operator+=`. -/
def fsSuccIter : Nat → fockstate → Except fserr fockstate
  | 0, fs => .ok fs
  | k + 1, fs =>
    match fsSucc fs with
    | .error e => .error e
    | .ok fs' => fsSuccIter k fs'

/-- `fockstate::operator+(int c)` — rejects an Undefined state up front,
then applies `operator++` `c` times (each application can itself throw
once the enumeration is exhausted). -/
def fsAdd (fs : fockstate) (c : Nat) : Except fserr fockstate :=
  if fs.code = none then .error (.invalidArgument ("cannot make operation on ndef-state"))
  else fsSuccIter c fs

/-- `fockstate::operator*` — tensor product: the buffer of `a` followed by
the buffer of `b` with every byte offset by `a._m` and narrowed back to
`char` on the store (`_new_code[k] = b._code[k-_n] + _m`); `_m` and `_n`
add.  Throws if either buffer is absent. -/
def fsMul (a b : fockstate) : Except fserr fockstate :=
  match a.code, b.code with
  | some la, some lb =>
    .ok ⟨a.m + b.m, a.n + b.n, some (la ++ lb.map (fun x => toByte (x + (a.m : Int))))⟩
  | _, _ => .error (.invalidArgument ("cannot make operation on ndef-state"))

/-- The counting loop of `fockstate::operator[]`:
`for (i..) if code[i] - 'A' <= idx then (count when == idx) else break`,
byte promoted to `int`.  With a null buffer the source runs the loop only
when `_n = 0` (otherwise it dereferences null — undefined behaviour);
the model reads no elements in that case, matching the `_n = 0`
execution. -/
def countMode : List Int → Int → Nat
  | [], _ => 0
  | b :: l, idx =>
    if b - 65 ≤ idx then (if b - 65 = idx then 1 else 0) + countMode l idx else 0

/-- `fockstate::operator[](int idx)` — note the source checks only the
range of `idx` against `_m`; it never checks `_code` for null. -/
def fsIndex (fs : fockstate) (idx : Int) : Except fserr Nat :=
  if idx < 0 ∨ (fs.m : Int) ≤ idx then .error (.outOfRange ("invalid mode"))
  else .ok (countMode (fs.code.getD []) idx)

/-- `_check_slice` clamping of `start`: one Python-style wrap for negative
values, then clamp below at `0` (no upper clamp). -/
def clampStart (m : Nat) (v : Int) : Nat :=
  let v1 := if v < 0 then v + m else v
  (if v1 < 0 then 0 else v1).toNat

/-- `_check_slice` clamping of `end`: wrap, clamp below at `0`, clamp
above at `m`. -/
def clampEnd (m : Nat) (v : Int) : Nat :=
  let v1 := if v < 0 then v + m else v
  let v2 := if v1 < 0 then 0 else v1
  (if v2 > (m : Int) then (m : Int) else v2).toNat

/-- Iteration count of the loop `for (i = start; i < end; i += step)`,
i.e. `ceil((end-start)/step)`, for `step ≥ 1`.  (For `step ≤ 0` and
`start < end` the source loop does not terminate; claims only concern
`step ≥ 1`.) -/
def sliceM (s e st : Nat) : Nat := (e - s + st - 1) / st

/-- The particle filter of `_check_slice` / `slice` on a buffer byte `b`
(promoted to `int`):
`b >= start+'A' && b < end+'A' && (step == 1 || (b-start-'A') % step == 0)`.
The remainder is only reached with `b - start - 65 ≥ 0`, where C++ `%`
and the mathematical remainder agree. -/
def slicePred (s e st : Nat) (b : Int) : Bool :=
  decide ((s : Int) + 65 ≤ b) && decide (b < (e : Int) + 65) &&
    (decide (st = 1) || decide ((b - s - 65) % (st : Int) = 0))

/-- `fockstate::slice(start, end, step)` — `_check_slice` throws on an
absent buffer; selected bytes are remapped by
`(b - start - 'A') / step + 'A'` and narrowed to `char` on the store
(the division operands are non-negative for selected bytes, where C++
`/` and the mathematical quotient agree); an empty selection yields the
`{slice_m, 0}` Empty-defined state. -/
def fsSlice (fs : fockstate) (start stop : Int) (step : Nat) : Except fserr fockstate :=
  let s := clampStart fs.m start
  let e := clampEnd fs.m stop
  match fs.code with
  | none => .error (.invalidArgument ("cannot make operation on ndef-state"))
  | some l =>
    let mid := l.filter (slicePred s e step)
    if mid.length = 0 then .ok ⟨sliceM s e step, 0, some []⟩
    else .ok ⟨sliceM s e step, mid.length,
      some (mid.map (fun b => toByte ((b - s - 65) / (step : Int) + 65)))⟩

/-- `fockstate::set_slice(fs, start, end)` — `_check_slice` with step 1
(throws on an absent receiver buffer), mode-count check on the
replacement, then concatenation of the bytes below `start + 'A'`, the
replacement bytes offset by `start` (narrowed to `char` on the store),
and the remaining bytes at or above `end + 'A'`.  The source reads the
replacement buffer up to `fs._n`, which is its whole allocation; for an
Undefined replacement it reads nothing only when `fs._n = 0` (otherwise
undefined behaviour), which is what reading the absent list as `[]`
models. -/
def fsSetSlice (fs rep : fockstate) (start stop : Int) : Except fserr fockstate :=
  let s := clampStart fs.m start
  let e := clampEnd fs.m stop
  match fs.code with
  | none => .error (.invalidArgument ("cannot make operation on ndef-state"))
  | some l =>
    let sn := (l.filter (slicePred s e 1)).length
    if sliceM s e 1 ≠ rep.m then .error (.invalidArgument ("invalid fockstate to replace in slice"))
    else
      let newN := fs.n - sn + rep.n
      if newN = 0 then .ok ⟨fs.m, 0, some []⟩
      else .ok ⟨fs.m, newN,
        some (l.takeWhile (fun b => decide (b < (s : Int) + 65)) ++
              (rep.code.getD []).map (fun b => toByte (b + (s : Int))) ++
              ((l.dropWhile (fun b => decide (b < (s : Int) + 65))).dropWhile
                 (fun b => decide (b < (e : Int) + 65))))⟩

/-- `skip_blanks`. -/
def skipBlanks : List Char → List Char := List.dropWhile (fun c => c = ' ')

/-- The digit-run loop of `_parse_str`: `cn = 10*cn + (*str - '0')`. -/
def parseDigits : List Char → Nat → Nat × List Char
  | [], acc => (acc, [])
  | c :: s, acc => if c.isDigit then parseDigits s (10 * acc + (c.toNat - 48)) else (acc, c :: s)

/-- The annotation scan of `_parse_str`: advance to the matching `x7d`
(the annotation text itself never influences `_m`, `_n` or the buffer);
`none` when the input ends first (`no annotation close`). -/
def scanAnnot : List Char → Option (List Char)
  | [] => none
  | c :: s => if c = '}' then some s else scanAnnot s

/-- The inner sub-term loop of `_parse_str`
(`while (isdigit(*str) || *str == x7b)`), accumulating `total_cn`.
A digit run not followed by an annotation ends the loop on the next
check (the following character is neither a digit nor an opening brace),
so that branch returns directly.  The structurally decreasing `fuel`
argument (every iteration consumes at least one character) only pads
recursion; callers pass `length + 1`, which the loop can never
exhaust. -/
def parseSubterms : Nat → List Char → Nat → Except fserr (Nat × List Char)
  | 0, _, _ => .error (.invalidArgument ("internal: fuel exhausted"))
  | fuel + 1, s, acc =>
    match s with
    | [] => .ok (acc, [])
    | c :: s' =>
      if c.isDigit then
        match parseDigits s 0 with
        | (cn, '{' :: s2) =>
          if cn = 0 then
            .error (.invalidArgument ("invalid fock state representation (annotation on 0 photons)"))
          else
            match scanAnnot s2 with
            | none => .error (.invalidArgument ("invalid fock state representation (no annotation close)"))
            | some s3 => parseSubterms fuel s3 (acc + cn)
        | (cn, s2) => .ok (acc + cn, s2)
      else if c = '{' then
        match scanAnnot s' with
        | none => .error (.invalidArgument ("invalid fock state representation (no annotation close)"))
        | some s3 => parseSubterms fuel s3 (acc + 1)
      else .ok (acc, s)

/-- The main mode-term loop of `_parse_str`: breaks at end of input, at a
character outside `0-9,x7b`, at a non-comma once a term exists, or at a
comma before any term exists (the Undefined form); otherwise consumes an
optional comma and one sub-term run, pushing its count and adding it to
`_n`.  `fuel` as in `parseSubterms`. -/
def parseTerms : Nat → List Char → List Nat → Nat → Except fserr (List Nat × Nat × List Char)
  | 0, _, _, _ => .error (.invalidArgument ("internal: fuel exhausted"))
  | fuel + 1, s, fsv, n =>
    match skipBlanks s with
    | [] => .ok (fsv, n, [])
    | c :: s' =>
      if ¬(c.isDigit ∨ c = ',' ∨ c = '{') ∨ (fsv ≠ [] ∧ c ≠ ',') ∨ (fsv = [] ∧ c = ',') then
        .ok (fsv, n, c :: s')
      else
        let s2 := if c = ',' then skipBlanks s' else c :: s'
        match parseSubterms (s2.length + 1) s2 0 with
        | .error e => .error e
        | .ok (total, s3) => parseTerms fuel s3 (fsv ++ [total]) (n + total)

/-- The bare-comma loop of `_parse_str` (`_m = 1`, then one increment per
comma, blanks skipped before each check). -/
def commaLoop : List Char → Nat → Nat × List Char
  | [], m => (m, [])
  | c :: s, m =>
    if c = ' ' then commaLoop s m
    else if c = ',' then commaLoop s (m + 1)
    else (m, c :: s)

/-- `fockstate::_parse_str` (and with it the `fockstate(const char*)`
constructor): opening delimiter, mode-term loop, bare-comma Undefined
form, matching close (for `|` either `>` or the wide bracket), trailing
blanks, then either an Undefined state of the comma-derived mode count or
a defined state built from the occupation vector. -/
def parse (str : List Char) : Except fserr fockstate :=
  match skipBlanks str with
  | [] => .error (.invalidArgument ("invalid fock state representation"))
  | openc :: s1 =>
    if ¬(openc = '[' ∨ openc = '|' ∨ openc = '(') then
      .error (.invalidArgument ("invalid fock state representation"))
    else
      match parseTerms (s1.length + 1) s1 [] 0 with
      | .error e => .error e
      | .ok (fsv, n, s2) =>
        let p : Nat × List Char :=
          match s2, fsv with
          | ',' :: _, [] => commaLoop s2 1
          | _, _ => (0, s2)
        match p.2 with
        | [] => .error (.invalidArgument ("invalid fock state representation (bad close)"))
        | c :: s4 =>
          if (openc = '[' ∧ c ≠ ']') ∨ (openc = '(' ∧ c ≠ ')') ∨
             (openc = '|' ∧ ¬(c = '>' ∨ c = '〉')) then
            .error (.invalidArgument ("invalid fock state representation (bad close)"))
          else if skipBlanks s4 ≠ [] then
            .error (.invalidArgument ("invalid fock state representation (extra chars)"))
          else if p.1 ≠ 0 then .ok ⟨p.1, n, none⟩
          else .ok ⟨fsv.length, n, some (codeOfVect fsv)⟩

/-- The representation invariant of a `fockstate` value (spec §3), read at
byte level: a present buffer has exactly `n` bytes, in non-decreasing
order, and every byte decodes (`byte - 'A'`) to a mode in `[0, m)`, i.e.
lies in `[65, m + 65)`; an absent buffer carries no particle data.  A
wrapped byte (`toByte (mode + 65) ≠ mode + 65`, first at mode 63) is
negative and violates the lower bound. -/
def fswf (fs : fockstate) : Prop :=
  match fs.code with
  | none => True
  | some l => l.length = fs.n ∧ List.Sorted (· ≤ ·) l ∧
      ∀ b ∈ l, 65 ≤ b ∧ b < (fs.m : Int) + 65

/-- The byte encoding of a mode list, exactly as the source stores it:
`char(mode + 'A')`.  It is the order-preserving map `mode + 65` precisely
when every mode is at most 62; from mode 63 on the byte wraps. -/
def encode (l : List Nat) : List Int := l.map (fun i : Nat => toByte ((i : Int) + 65))

/-- Mode-level abstraction of the `operator++` scan, used through the
correspondence `succCode_encode`: on unwrapped buffers (`m ≤ 63`) the
byte-level `succCode` acts as this function does on the underlying mode
lists. -/
def succMode (m : Nat) : List Nat → Option (List Nat)
  | [] => none
  | a :: l =>
    match succMode m l with
    | some l' => some (a :: l')
    | none => if a + 1 = m then none else some ((a + 1) :: l.map (fun _ => a + 1))

/-- The lexicographically ordered list of all non-decreasing `n`-tuples
over `[lo, m)` — the enumeration order realised by repeated
`operator++` on unwrapped buffers. -/
def tuplesFrom (m : Nat) : Nat → Nat → List (List Nat)
  | 0, _ => [[]]
  | n + 1, lo => (List.range' lo (m - lo)).flatMap (fun f => (tuplesFrom m n f).map (f :: ·))

/-- `succMode` iterated `k` times in the `Option` monad. -/
def runSuccMode (m : Nat) : Nat → List Nat → Option (List Nat)
  | 0, l => some l
  | k + 1, l =>
    match succMode m l with
    | none => none
    | some l' => runSuccMode m k l'

/-- `succCode` iterated `k` times in the `Option` monad. -/
def runSucc (m : Nat) : Nat → List Int → Option (List Int)
  | 0, l => some l
  | k + 1, l =>
    match succCode m l with
    | none => none
    | some l' => runSucc m k l'

theorem toByte_eq_self (v : Int) (h1 : -128 ≤ v) (h2 : v ≤ 127) : toByte v = v := by
  unfold toByte
  omega

theorem toByte_mem_range (v : Int) : -128 ≤ toByte v ∧ toByte v ≤ 127 := by
  unfold toByte
  constructor <;> omega

theorem succCode_eq_none_iff (m : Nat) (l : List Int) :
    succCode m l = none ↔ ∀ b ∈ l, b = (m : Int) + 64 := by
  induction l with
  | nil => simp [succCode]
  | cons a t ih =>
    cases h : succCode m t with
    | some l' =>
      simp only [succCode, h]
      constructor
      · intro hc; exact absurd hc (by simp)
      · intro hall
        have : succCode m t = none := ih.mpr (fun x hx => hall x (List.mem_cons_of_mem a hx))
        simp [this] at h
    | none =>
      have ht := ih.mp h
      constructor
      · intro hc
        simp only [succCode, h] at hc
        by_cases ha : a = (m : Int) + 64
        · intro x hx
          rcases List.mem_cons.mp hx with rfl | hx'
          · exact ha
          · exact ht x hx'
        · simp [ha] at hc
      · intro hall
        have ha : a = (m : Int) + 64 := hall a (List.mem_cons_self a t)
        simp [succCode, h, ha]

theorem fsEq_none_none (a b : fockstate) (hca : a.code = none) (hcb : b.code = none) :
    fsEq a b = true ↔ a.m = b.m ∧ a.n = b.n := by
  unfold fsEq
  rw [hca, hcb]
  by_cases h1 : a.m = b.m
  · by_cases h2 : a.n = b.n
    · by_cases h3 : a.m = 0 ∧ b.m = 0 <;> simp [h1, h2, h3]
    · simp [h1, h2]
  · simp [h1]

theorem fswf_some (fs : fockstate) (l : List Int) (hc : fs.code = some l) (hw : fswf fs) :
    l.length = fs.n ∧ List.Sorted (· ≤ ·) l ∧ ∀ b ∈ l, 65 ≤ b ∧ b < (fs.m : Int) + 65 := by
  unfold fswf at hw
  rw [hc] at hw
  exact hw

theorem fsEq_some_some (a b : fockstate) (hwa : fswf a) (hwb : fswf b)
    (la lb : List Int) (hca : a.code = some la) (hcb : b.code = some lb) :
    fsEq a b = true ↔ a.m = b.m ∧ a.n = b.n ∧ la = lb := by
  unfold fsEq
  rw [hca, hcb]
  by_cases h1 : a.m = b.m
  · by_cases h2 : a.n = b.n
    · have hcond : ¬(a.m ≠ b.m ∨ a.n ≠ b.n) := by simp [h1, h2]
      rw [if_neg hcond]
      by_cases h3 : a.m = 0 ∧ b.m = 0
      · have ha0 : la = [] := by
          have hb := (fswf_some a la hca hwa).2.2
          refine List.eq_nil_iff_forall_not_mem.mpr (fun x hx => ?_)
          have h5 := hb x hx
          rw [h3.1] at h5
          simp at h5
          omega
        have hb0 : lb = [] := by
          have hb := (fswf_some b lb hcb hwb).2.2
          refine List.eq_nil_iff_forall_not_mem.mpr (fun x hx => ?_)
          have h5 := hb x hx
          rw [h3.2] at h5
          simp at h5
          omega
        rw [if_pos h3]
        simp [h1, h2, ha0, hb0]
      · rw [if_neg h3]
        simp [h1, h2]
    · simp [h1, h2]
  · simp [h1]

/-- Claim C10: any two states with `modes = 0` and `particle_count = 0`
compare equal, whether or not either encoding is present
(`fockstate::operator==` returns true as soon as both `_m` are zero). -/
theorem C10_zero_mode_equality (a b : fockstate)
    (ham : a.m = 0) (hbm : b.m = 0) (han : a.n = 0) (hbn : b.n = 0) :
    fsEq a b = true := by
  simp [fsEq, ham, hbm, han, hbn]

/-- Witness for C10: the default-constructed Undefined state compares
equal to the Empty-defined state constructed with `m = 0`. -/
theorem C10_zero_mode_equality_witness :
    fsEq fsDefault (fsNdef 0) = true :=
  C10_zero_mode_equality fsDefault (fsNdef 0) rfl rfl rfl rfl

/-- Counterexample to claim C9 as stated: at `m = 64`, the state built
from an occupation vector with its one particle in the last mode (63)
stores the wrapped byte `char(63 + 'A') = -128`; the exhaustion test of
`operator++` compares that byte with the `int` `_m - 1 + 'A' = 128` and
never succeeds, so instead of dropping the encoding the scan bumps the
byte: the result is a defined state with buffer `[-127]`, not the
Undefined state the claim requires. -/
theorem C9_counterexample :
    fockstateOfVect (List.replicate 63 0 ++ [1]) = ⟨64, 1, some [-128]⟩ ∧
    fsSucc ⟨64, 1, some [-128]⟩ = .ok ⟨64, 1, some [-127]⟩ ∧
    (Except.ok (⟨64, 1, some [-127]⟩ : fockstate) ≠
      (.ok ⟨64, 1, none⟩ : Except fserr fockstate)) := by
  refine ⟨by decide, by decide, by decide⟩

/-- Claim C9, amended: when `operator++` actually exhausts a defined
state — every stored byte equals the unwrapped last-mode encoding
`_m - 1 + 'A' = m + 64`, which a byte in `[-128, 127]` can only satisfy
when `m ≤ 63` — only the encoding is dropped: the resulting Undefined
state keeps the previous `_m` and `_n` (so exhausting a populated state
still reports `particle_count > 0`). -/
theorem C9_amended_exhaustion_keeps_m_n (fs : fockstate) (l : List Int)
    (hc : fs.code = some l) (hex : ∀ b ∈ l, b = (fs.m : Int) + 64) :
    fsSucc fs = .ok ⟨fs.m, fs.n, none⟩ := by
  simp [fsSucc, hc, (succCode_eq_none_iff fs.m l).mpr hex]

/-- Witness for the amended C9: exhausting the populated state `|0,2>`
(m = 2, n = 2, bytes `[66, 66]`) yields an Undefined state still
reporting `particle_count = 2 > 0`. -/
theorem C9_amended_exhaustion_keeps_m_n_witness :
    fsSucc ⟨2, 2, some [66, 66]⟩ = .ok ⟨2, 2, none⟩ ∧ (2:Nat) > 0 :=
  ⟨C9_amended_exhaustion_keeps_m_n ⟨2, 2, some [66, 66]⟩ [66, 66] rfl (by decide), by decide⟩

/-- Counterexample to claim C7 as stated: `operator*` stores
`char(b._code[j] + _m)`, which wraps once the offset byte leaves the
char range.  For `a` the empty defined state with 63 modes and `b` a
one-particle state in mode 0 (byte 65), the product stores
`char(65 + 63) = -128`, not the unwrapped `65 + 63 = 128` that
the spec phrase (the mode indices of b offset by a.modes) demands. -/
theorem C7_counterexample :
    fsMul ⟨63, 0, some []⟩ ⟨1, 1, some [65]⟩ = .ok ⟨64, 1, some [-128]⟩ ∧
    ((-128 : Int) ≠ 65 + 63) := by
  refine ⟨by decide, by decide⟩

/-- Claim C7, amended: the tensor product of two defined states has
`modes` and `particle_count` adding and its buffer is the buffer of `a`
followed by the buffer of `b` with every byte offset by `a.modes` and
narrowed to `char`; when every offset byte stays inside the char range
(in particular whenever the states are well-formed with
`a.modes + b.modes ≤ 63`) the narrowing is the identity and the buffer
is exactly the buffer of `b` offset by `a.modes`.  The product fails
with the invalid-operation error when either operand is Undefined. -/
theorem C7_amended_tensor_product (a b : fockstate) :
    (∀ la lb, a.code = some la → b.code = some lb →
      fsMul a b = .ok ⟨a.m + b.m, a.n + b.n,
        some (la ++ lb.map (fun x => toByte (x + (a.m : Int))))⟩) ∧
    (∀ la lb, a.code = some la → b.code = some lb →
      (∀ x ∈ lb, -128 ≤ x + (a.m : Int) ∧ x + (a.m : Int) ≤ 127) →
      fsMul a b = .ok ⟨a.m + b.m, a.n + b.n,
        some (la ++ lb.map (fun x => x + (a.m : Int)))⟩) ∧
    (a.code = none ∨ b.code = none →
      fsMul a b = .error (.invalidArgument ("cannot make operation on ndef-state"))) := by
  refine ⟨?_, ?_, ?_⟩
  · intro la lb hca hcb
    simp [fsMul, hca, hcb]
  · intro la lb hca hcb hrange
    simp only [fsMul, hca, hcb]
    have : lb.map (fun x => toByte (x + (a.m : Int))) = lb.map (fun x => x + (a.m : Int)) :=
      List.map_congr_left (fun x hx => toByte_eq_self _ (hrange x hx).1 (hrange x hx).2)
    rw [this]
  · intro h
    rcases h with h | h
    · cases hb : b.code <;> simp [fsMul, h, hb]
    · cases ha : a.code <;> simp [fsMul, h, ha]

/-- Witness for the amended C7 at small in-range inputs and at an
Undefined operand. -/
theorem C7_amended_tensor_product_witness :
    fsMul ⟨2, 2, some [65, 66]⟩ ⟨2, 1, some [66]⟩ = .ok ⟨4, 3, some [65, 66, 68]⟩ ∧
    fsMul ⟨2, 0, none⟩ ⟨2, 1, some [66]⟩ =
      .error (.invalidArgument ("cannot make operation on ndef-state")) :=
  ⟨(C7_amended_tensor_product ⟨2, 2, some [65, 66]⟩ ⟨2, 1, some [66]⟩).2.1 [65, 66] [66]
     rfl rfl (by decide),
   (C7_amended_tensor_product ⟨2, 0, none⟩ ⟨2, 1, some [66]⟩).2.2 (Or.inl rfl)⟩

/-- Counterexample to claim C2 as stated: the occupation query on the
Undefined state parsed from `"|,,>"` (m = 3, n = 0) with the in-range
mode index 0 succeeds with 0 instead of failing — `fockstate::operator[]`
never checks `_code` for null. -/
theorem C2_counterexample :
    fsIndex ⟨3, 0, none⟩ 0 = Except.ok 0 ∧
    fsIndex ⟨3, 0, none⟩ 0 ≠
      Except.error (fserr.invalidArgument ("cannot make operation on ndef-state")) ∧
    parse ('|' :: ',' :: ',' :: '>' :: []) = Except.ok ⟨3, 0, none⟩ := by
  refine ⟨rfl, ?_, rfl⟩
  decide

/-- Claim C2, amended: on an Undefined operand, successor,
increment-by-count, tensor product (either side), slice and `set_slice`
(as receiver) all fail with the invalid-operation error; the occupation
query, however, does not inspect the encoding: an out-of-range mode fails
with the out-of-range error, and an in-range mode on a particle-free
Undefined state silently returns 0. -/
theorem C2_amended_undefined_operations (fs : fockstate) (h : fs.code = none) :
    fsSucc fs = .error (.invalidArgument ("cannot make operation on ndef-state")) ∧
    (∀ c, fsAdd fs c = .error (.invalidArgument ("cannot make operation on ndef-state"))) ∧
    (∀ b, fsMul fs b = .error (.invalidArgument ("cannot make operation on ndef-state")) ∧
          fsMul b fs = .error (.invalidArgument ("cannot make operation on ndef-state"))) ∧
    (∀ start stop step, fsSlice fs start stop step =
        .error (.invalidArgument ("cannot make operation on ndef-state"))) ∧
    (∀ rep start stop, fsSetSlice fs rep start stop =
        .error (.invalidArgument ("cannot make operation on ndef-state"))) ∧
    (∀ idx : Int, idx < 0 ∨ (fs.m : Int) ≤ idx →
        fsIndex fs idx = .error (.outOfRange ("invalid mode"))) ∧
    (∀ idx : Int, 0 ≤ idx → idx < (fs.m : Int) → fs.n = 0 → fsIndex fs idx = .ok 0) := by
  refine ⟨?_, ?_, ?_, ?_, ?_, ?_, ?_⟩
  · simp [fsSucc, h]
  · intro c; simp [fsAdd, h]
  · intro b
    constructor
    · cases hb : b.code <;> simp [fsMul, h, hb]
    · cases hb : b.code <;> simp [fsMul, h, hb]
  · intro start stop step; simp [fsSlice, h]
  · intro rep start stop; simp [fsSetSlice, h]
  · intro idx hidx; simp [fsIndex, hidx]
  · intro idx h0 hm hn
    have : ¬(idx < 0 ∨ (fs.m : Int) ≤ idx) := by omega
    simp [fsIndex, this, h, countMode]

/-- Witness for the amended C2 at the Undefined state with m = 3, n = 0. -/
theorem C2_amended_undefined_operations_witness :
    fsSucc ⟨3, 0, none⟩ = .error (.invalidArgument ("cannot make operation on ndef-state")) ∧
    fsIndex ⟨3, 0, none⟩ 5 = .error (.outOfRange ("invalid mode")) ∧
    fsIndex ⟨3, 0, none⟩ 1 = .ok 0 :=
  ⟨(C2_amended_undefined_operations ⟨3, 0, none⟩ rfl).1,
   (C2_amended_undefined_operations ⟨3, 0, none⟩ rfl).2.2.2.2.2.1 5 (by decide),
   (C2_amended_undefined_operations ⟨3, 0, none⟩ rfl).2.2.2.2.2.2 1 (by decide) (by decide) rfl⟩

/-- Claim C4: `"|,,>"` parses to the Undefined state with m = 3, n = 0,
`"|0,0,0>"` parses to the defined (empty-buffer) state with m = 3, n = 0,
and the two are not equal in either order. -/
theorem C4_undefined_vs_defined_parse :
    parse ('|' :: ',' :: ',' :: '>' :: []) = Except.ok ⟨3, 0, none⟩ ∧
    parse ('|' :: '0' :: ',' :: '0' :: ',' :: '0' :: '>' :: []) = Except.ok ⟨3, 0, some []⟩ ∧
    fsEq ⟨3, 0, none⟩ ⟨3, 0, some []⟩ = false ∧
    fsEq ⟨3, 0, some []⟩ ⟨3, 0, none⟩ = false := by
  refine ⟨rfl, rfl, ?_, ?_⟩ <;> decide

/-- Counterexample to claim C5 as stated: the two (identical) Undefined
states with m = 3 ≠ 0, n = 0 compare equal — `fockstate::operator==`
returns true for any two Undefined states agreeing on `_m` and `_n`. -/
theorem C5_counterexample :
    fsEq ⟨3, 0, none⟩ ⟨3, 0, none⟩ = true ∧ (3 : Nat) ≠ 0 := by decide

/-- Claim C5, amended: two Undefined states are equal exactly when their
mode and particle counts agree (for any m, not only m = 0); two defined
states satisfying the representation invariant are equal exactly when
mode count, particle count and the stored byte sequences agree.  Since
the source compares the 8-bit bytes, mode sequences are compared only
through their `char` encodings; within the char-safe range (every mode
at most 62, where the encoding is injective) byte equality coincides
with mode-sequence equality. -/
theorem C5_amended_equality (a b : fockstate) (hwa : fswf a) (hwb : fswf b) :
    (a.code = none → b.code = none → (fsEq a b = true ↔ a.m = b.m ∧ a.n = b.n)) ∧
    (∀ la lb, a.code = some la → b.code = some lb →
      (fsEq a b = true ↔ a.m = b.m ∧ a.n = b.n ∧ la = lb)) ∧
    (∀ u v : List Nat, a.code = some (encode u) → b.code = some (encode v) →
      (∀ x ∈ u, x ≤ 62) → (∀ x ∈ v, x ≤ 62) → a.m ≠ 0 →
      (fsEq a b = true ↔ a.m = b.m ∧ a.n = b.n ∧ u = v)) := by
  refine ⟨?_, ?_, ?_⟩
  · intro hca hcb; exact fsEq_none_none a b hca hcb
  · intro la lb hca hcb; exact fsEq_some_some a b hwa hwb la lb hca hcb
  · intro u v hca hcb hu hv hm0
    rw [fsEq_some_some a b hwa hwb (encode u) (encode v) hca hcb]
    have hinj : encode u = encode v ↔ u = v := by
      constructor
      · intro h
        have hu' : encode u = u.map (fun i : Nat => (i : Int) + 65) := by
          unfold encode
          apply List.map_congr_left
          intro x hx
          exact toByte_eq_self _ (by omega) (by have := hu x hx; omega)
        have hv' : encode v = v.map (fun i : Nat => (i : Int) + 65) := by
          unfold encode
          apply List.map_congr_left
          intro x hx
          exact toByte_eq_self _ (by omega) (by have := hv x hx; omega)
        rw [hu', hv'] at h
        have : Function.Injective (fun i : Nat => (i : Int) + 65) := by
          intro x y hxy
          simp at hxy
          omega
        exact List.map_injective_iff.mpr this h
      · intro h; rw [h]
    rw [hinj]

/-- Witness for the amended C5: equal Undefined states with m = 3, equal
defined singleton states, and the encoded clause at mode lists `[0]`. -/
theorem C5_amended_equality_witness :
    fsEq ⟨3, 0, none⟩ ⟨3, 0, none⟩ = true ∧
    fsEq ⟨1, 1, some [65]⟩ ⟨1, 1, some [65]⟩ = true :=
  ⟨((C5_amended_equality ⟨3, 0, none⟩ ⟨3, 0, none⟩ trivial trivial).1 rfl rfl).mpr ⟨rfl, rfl⟩,
   ((C5_amended_equality ⟨1, 1, some [65]⟩ ⟨1, 1, some [65]⟩ ⟨rfl, by decide, by decide⟩
      ⟨rfl, by decide, by decide⟩).2.1 [65] [65] rfl rfl).mpr ⟨rfl, rfl, rfl⟩⟩

/-- Counterexample to claim C3 as stated: at k = 1, the body `","` (one
bare comma) parses to an Undefined state with mode count 2, not 1 — the
comma loop of `_parse_str` starts at `_m = 1` and adds one per comma. -/
theorem C3_counterexample :
    parse ('|' :: ',' :: '>' :: []) = Except.ok ⟨2, 0, none⟩ ∧ (2 : Nat) ≠ 1 := by
  exact ⟨rfl, by decide⟩

theorem succMode_eq_none_iff (m : Nat) (l : List Nat) :
    succMode m l = none ↔ ∀ x ∈ l, x + 1 = m := by
  induction l with
  | nil => simp [succMode]
  | cons a t ih =>
    cases h : succMode m t with
    | some l' =>
      simp only [succMode, h]
      constructor
      · intro hc; exact absurd hc (by simp)
      · intro hall
        have : succMode m t = none := ih.mpr (fun x hx => hall x (List.mem_cons_of_mem a hx))
        simp [this] at h
    | none =>
      have ht := ih.mp h
      constructor
      · intro hc
        simp only [succMode, h] at hc
        by_cases ha : a + 1 = m
        · intro x hx
          rcases List.mem_cons.mp hx with rfl | hx'
          · exact ha
          · exact ht x hx'
        · simp [ha] at hc
      · intro hall
        have ha : a + 1 = m := hall a (List.mem_cons_self a t)
        simp [succMode, h, ha]

theorem succMode_preserve (m : Nat) (l l' : List Nat) (h : succMode m l = some l')
    (hs : List.Sorted (· ≤ ·) l) (hb : ∀ x ∈ l, x < m) :
    List.Sorted (· ≤ ·) l' ∧ (∀ x ∈ l', x < m) ∧ l'.length = l.length ∧
      (∀ y ∈ l', ∃ x ∈ l, x ≤ y) := by
  induction l generalizing l' with
  | nil => simp [succMode] at h
  | cons a t ih =>
    have hst : List.Sorted (· ≤ ·) t := hs.of_cons
    have hat : ∀ y ∈ t, a ≤ y := List.rel_of_sorted_cons hs
    have hbt : ∀ x ∈ t, x < m := fun x hx => hb x (List.mem_cons_of_mem a hx)
    cases ht : succMode m t with
    | some t' =>
      simp only [succMode, ht] at h
      obtain rfl : a :: t' = l' := by simpa using h
      obtain ⟨hs', hb', hl', hg'⟩ := ih t' ht hst hbt
      refine ⟨?_, ?_, by simp [hl'], ?_⟩
      · refine List.sorted_cons.mpr ⟨?_, hs'⟩
        intro y hy
        obtain ⟨x, hx, hxy⟩ := hg' y hy
        exact le_trans (hat x hx) hxy
      · intro x hx
        rcases List.mem_cons.mp hx with rfl | hx'
        · exact hb x (List.mem_cons_self x t)
        · exact hb' x hx'
      · intro y hy
        rcases List.mem_cons.mp hy with rfl | hy'
        · exact ⟨y, List.mem_cons_self y t, le_refl y⟩
        · obtain ⟨x, hx, hxy⟩ := hg' y hy'
          exact ⟨x, List.mem_cons_of_mem a hx, hxy⟩
    | none =>
      simp only [succMode, ht] at h
      by_cases ha : a + 1 = m
      · simp [ha] at h
      · simp only [if_neg ha] at h
        obtain rfl : (a + 1) :: t.map (fun _ => a + 1) = l' := by simpa using h
        have ham : a + 1 < m :=
          lt_of_le_of_ne (Nat.succ_le_of_lt (hb a (List.mem_cons_self a t))) ha
        refine ⟨?_, ?_, by simp, ?_⟩
        · refine List.sorted_cons.mpr ⟨?_, ?_⟩
          · intro y hy
            obtain ⟨x, -, rfl⟩ := List.mem_map.mp hy
            exact le_refl _
          · rw [List.map_const']
            exact List.pairwise_replicate.mpr (Or.inr (le_refl _))
        · intro x hx
          rcases List.mem_cons.mp hx with rfl | hx'
          · exact ham
          · obtain ⟨y, -, rfl⟩ := List.mem_map.mp hx'
            exact ham
        · intro y hy
          rcases List.mem_cons.mp hy with rfl | hy'
          · exact ⟨a, List.mem_cons_self a t, Nat.le_succ a⟩
          · obtain ⟨x, -, rfl⟩ := List.mem_map.mp hy'
            exact ⟨a, List.mem_cons_self a t, Nat.le_succ a⟩

theorem tuples_unfold (m n lo : Nat) (h : lo < m) :
    tuplesFrom m (n + 1) lo =
      (tuplesFrom m n lo).map (lo :: ·) ++ tuplesFrom m (n + 1) (lo + 1) := by
  have h1 : m - lo = (m - (lo + 1)) + 1 := by omega
  show (List.range' lo (m - lo)).flatMap (fun f => (tuplesFrom m n f).map (f :: ·)) = _
  rw [h1, List.range'_succ, List.flatMap_cons]
  rfl

theorem tuples_ge (m n lo : Nat) (h : m ≤ lo) : tuplesFrom m (n + 1) lo = [] := by
  show (List.range' lo (m - lo)).flatMap (fun f => (tuplesFrom m n f).map (f :: ·)) = []
  rw [Nat.sub_eq_zero_of_le h]
  rfl

theorem tuples_mem (m : Nat) : ∀ n lo l, l ∈ tuplesFrom m n lo ↔
    l.length = n ∧ List.Sorted (· ≤ ·) l ∧ ∀ x ∈ l, lo ≤ x ∧ x < m := by
  intro n
  induction n with
  | zero =>
    intro lo l
    constructor
    · intro h
      obtain rfl : l = [] := by simpa [tuplesFrom] using h
      simp
    · rintro ⟨hlen, -, -⟩
      obtain rfl : l = [] := List.length_eq_zero.mp hlen
      simp [tuplesFrom]
  | succ n ih =>
    intro lo l
    show l ∈ (List.range' lo (m - lo)).flatMap (fun f => (tuplesFrom m n f).map (f :: ·)) ↔ _
    rw [List.mem_flatMap]
    constructor
    · rintro ⟨f, hf, hl⟩
      rw [List.mem_range'] at hf
      obtain ⟨i, hi, rfl⟩ := hf
      obtain ⟨t, ht, rfl⟩ := List.mem_map.mp hl
      obtain ⟨hlen, hsort, hbnd⟩ := (ih _ _).mp ht
      refine ⟨by simp [hlen], ?_, ?_⟩
      · exact List.sorted_cons.mpr ⟨fun y hy => (hbnd y hy).1, hsort⟩
      · intro x hx
        rcases List.mem_cons.mp hx with rfl | hx'
        · omega
        · have := hbnd x hx'
          omega
    · rintro ⟨hlen, hsort, hbnd⟩
      cases l with
      | nil => simp at hlen
      | cons f t =>
        have hfb := hbnd f (List.mem_cons_self f t)
        refine ⟨f, ?_, ?_⟩
        · rw [List.mem_range']
          exact ⟨f - lo, by omega, by omega⟩
        · rw [List.mem_map]
          refine ⟨t, (ih f t).mpr ⟨by simpa using hlen, hsort.of_cons, ?_⟩, rfl⟩
          intro x hx
          exact ⟨List.rel_of_sorted_cons hsort x hx, (hbnd x (List.mem_cons_of_mem f hx)).2⟩

theorem tuples_nodup (m : Nat) : ∀ n lo, (tuplesFrom m n lo).Nodup := by
  intro n
  induction n with
  | zero => intro lo; simp [tuplesFrom]
  | succ n ih =>
    have key : ∀ w lo, m - lo = w → (tuplesFrom m (n + 1) lo).Nodup := by
      intro w
      induction w with
      | zero =>
        intro lo hw
        rw [tuples_ge m n lo (by omega)]
        exact List.nodup_nil
      | succ w ihw =>
        intro lo hw
        have hlo : lo < m := by omega
        rw [tuples_unfold m n lo hlo]
        refine List.Nodup.append ((ih lo).map (List.cons_injective)) (ihw (lo + 1) (by omega)) ?_
        intro x hx1 hx2
        obtain ⟨t, -, rfl⟩ := List.mem_map.mp hx1
        have := ((tuples_mem m (n + 1) (lo + 1) _).mp hx2).2.2 lo (List.mem_cons_self _ _)
        omega
    intro lo
    exact key (m - lo) lo rfl

theorem tuples_length (m : Nat) : ∀ n lo,
    (tuplesFrom m n lo).length = Nat.choose (n + (m - lo) - 1) n := by
  intro n
  induction n with
  | zero => intro lo; simp [tuplesFrom]
  | succ n ih =>
    have key : ∀ w lo, m - lo = w →
        (tuplesFrom m (n + 1) lo).length = Nat.choose ((n + 1) + w - 1) (n + 1) := by
      intro w
      induction w with
      | zero =>
        intro lo hw
        rw [tuples_ge m n lo (by omega)]
        have : (n + 1) + 0 - 1 = n := by omega
        rw [this]
        simp [Nat.choose_eq_zero_of_lt (by omega : n < n + 1)]
      | succ w ihw =>
        intro lo hw
        have hlo : lo < m := by omega
        rw [tuples_unfold m n lo hlo, List.length_append, List.length_map, ih lo,
            ihw (lo + 1) (by omega), hw]
        have e1 : n + (w + 1) - 1 = n + w := by omega
        have e2 : (n + 1) + w - 1 = n + w := by omega
        have e3 : (n + 1) + (w + 1) - 1 = (n + w) + 1 := by omega
        rw [e1, e2, e3, Nat.choose_succ_succ' (n + w) n]
    intro lo
    exact key (m - lo) lo rfl

theorem tuples_head (m : Nat) : ∀ n lo, lo < m →
    (tuplesFrom m n lo).head? = some (List.replicate n lo) := by
  intro n
  induction n with
  | zero => intro lo h; simp [tuplesFrom]
  | succ n ih =>
    intro lo h
    rw [tuples_unfold m n lo h, List.head?_append, List.head?_map, ih lo h]
    simp [List.replicate_succ]

theorem tuples_getLast (m : Nat) : ∀ n lo, lo < m →
    (tuplesFrom m n lo).getLast? = some (List.replicate n (m - 1)) := by
  intro n
  induction n with
  | zero => intro lo h; simp [tuplesFrom]
  | succ n ih =>
    have key : ∀ w lo, m - lo = w + 1 →
        (tuplesFrom m (n + 1) lo).getLast? = some (List.replicate (n + 1) (m - 1)) := by
      intro w
      induction w with
      | zero =>
        intro lo hw
        have hlo : lo < m := by omega
        rw [tuples_unfold m n lo hlo, tuples_ge m n (lo + 1) (by omega), List.append_nil,
            List.getLast?_map, ih lo hlo]
        have : lo = m - 1 := by omega
        simp [this, List.replicate_succ]
      | succ w ihw =>
        intro lo hw
        have hlo : lo < m := by omega
        rw [tuples_unfold m n lo hlo, List.getLast?_append, ihw (lo + 1) (by omega)]
        simp
    intro lo h
    exact key (m - lo - 1) lo (by omega)

theorem tuples_chain (m : Nat) : ∀ n lo,
    List.Chain' (fun a b => succMode m a = some b) (tuplesFrom m n lo) := by
  intro n
  induction n with
  | zero => intro lo; simp [tuplesFrom]
  | succ n ih =>
    have key : ∀ w lo, m - lo = w →
        List.Chain' (fun a b => succMode m a = some b) (tuplesFrom m (n + 1) lo) := by
      intro w
      induction w with
      | zero =>
        intro lo hw
        rw [tuples_ge m n lo (by omega)]
        exact List.chain'_nil
      | succ w ihw =>
        intro lo hw
        have hlo : lo < m := by omega
        rw [tuples_unfold m n lo hlo]
        refine List.Chain'.append ?_ (ihw (lo + 1) (by omega)) ?_
        · rw [List.chain'_map]
          exact (ih lo).imp (fun a b hab => by simp [succMode, hab])
        · intro x hx y hy
          by_cases hlo1 : lo + 1 < m
          · rw [tuples_head m (n + 1) (lo + 1) hlo1] at hy
            rw [List.getLast?_map, tuples_getLast m n lo hlo] at hx
            simp only [Option.mem_def, Option.some.injEq, Option.map_eq_some'] at hx hy
            obtain ⟨t0, ht0, rfl⟩ := hx
            obtain rfl : List.replicate n (m - 1) = t0 := by
              simpa using ht0
            subst hy
            have hnone : succMode m (List.replicate n (m - 1)) = none :=
              (succMode_eq_none_iff _ _).mpr
                (fun z hz => by rw [List.eq_of_mem_replicate hz]; omega)
            have hne : ¬(lo + 1 = m) := by omega
            simp [succMode, hnone, hne, List.map_const', List.replicate_succ]
          · rw [tuples_ge m n (lo + 1) (by omega)] at hy
            simp at hy
    intro lo
    exact key (m - lo) lo rfl

theorem runSuccMode_succ_right (m : Nat) : ∀ k l, runSuccMode m (k + 1) l =
    match runSuccMode m k l with
    | none => none
    | some l' => succMode m l' := by
  intro k
  induction k with
  | zero =>
    intro l
    simp only [runSuccMode]
    cases h : succMode m l <;> simp [runSuccMode, h]
  | succ k ihk =>
    intro l
    cases h : succMode m l with
    | none =>
      have e1 : runSuccMode m (k + 1 + 1) l = none := by
        show (match succMode m l with
              | none => none
              | some l' => runSuccMode m (k + 1) l') = none
        rw [h]
      have e2 : runSuccMode m (k + 1) l = none := by
        show (match succMode m l with
              | none => none
              | some l' => runSuccMode m k l') = none
        rw [h]
      rw [e1, e2]
    | some l1 =>
      have e1 : runSuccMode m (k + 1 + 1) l = runSuccMode m (k + 1) l1 := by
        show (match succMode m l with
              | none => none
              | some l' => runSuccMode m (k + 1) l') = runSuccMode m (k + 1) l1
        rw [h]
      have e2 : runSuccMode m (k + 1) l = runSuccMode m k l1 := by
        show (match succMode m l with
              | none => none
              | some l' => runSuccMode m k l') = runSuccMode m k l1
        rw [h]
      rw [e1, e2]
      exact ihk l1

theorem runSuccMode_get (m : Nat) (L : List (List Nat))
    (hch : List.Chain' (fun a b => succMode m a = some b) L)
    (h0 : List Nat) (hh : L.head? = some h0) :
    ∀ i, ∀ hi : i < L.length, runSuccMode m i h0 = some L[i] := by
  intro i
  induction i with
  | zero =>
    intro hi
    cases L with
    | nil => simp at hi
    | cons a t =>
      obtain rfl : a = h0 := by simpa using hh
      simp [runSuccMode]
  | succ i ihi =>
    intro hi
    have hi' : i < L.length := by omega
    rw [runSuccMode_succ_right, ihi hi']
    have := List.chain'_iff_get.mp hch i (by omega)
    simpa [List.get_eq_getElem] using this

theorem fsSuccIter_of_runSucc (m nn : Nat) : ∀ k l l', runSucc m k l = some l' →
    fsSuccIter k ⟨m, nn, some l⟩ = .ok ⟨m, nn, some l'⟩ := by
  intro k
  induction k with
  | zero =>
    intro l l' h
    obtain rfl : l = l' := by simpa [runSucc] using h
    rfl
  | succ k ihk =>
    intro l l' h
    cases hs : succCode m l with
    | none =>
      exfalso
      have : runSucc m (k + 1) l = none := by
        show (match succCode m l with
              | none => none
              | some l2 => runSucc m k l2) = none
        rw [hs]
      rw [this] at h
      cases h
    | some l1 =>
      have hrun : runSucc m k l1 = some l' := by
        have e : runSucc m (k + 1) l = runSucc m k l1 := by
          show (match succCode m l with
                | none => none
                | some l2 => runSucc m k l2) = runSucc m k l1
          rw [hs]
        rw [← e]
        exact h
      show (match fsSucc ⟨m, nn, some l⟩ with
            | Except.error e => Except.error e
            | Except.ok fs' => fsSuccIter k fs') = _
      have e : fsSucc ⟨m, nn, some l⟩ = .ok ⟨m, nn, some l1⟩ := by simp [fsSucc, hs]
      rw [e]
      exact ihk l1 l' hrun

theorem fsSuccIter_succ_right (k : Nat) : ∀ fs, fsSuccIter (k + 1) fs =
    match fsSuccIter k fs with
    | .error e => .error e
    | .ok fs' => fsSucc fs' := by
  induction k with
  | zero =>
    intro fs
    show (match fsSucc fs with
          | Except.error e => Except.error e
          | Except.ok fs' => fsSuccIter 0 fs') = _
    cases h : fsSucc fs <;> simp [fsSuccIter, h]
  | succ k ihk =>
    intro fs
    cases h : fsSucc fs with
    | error e =>
      have e1 : fsSuccIter (k + 1 + 1) fs = .error e := by
        show (match fsSucc fs with
              | Except.error e => Except.error e
              | Except.ok fs' => fsSuccIter (k + 1) fs') = Except.error e
        rw [h]
      have e2 : fsSuccIter (k + 1) fs = .error e := by
        show (match fsSucc fs with
              | Except.error e => Except.error e
              | Except.ok fs' => fsSuccIter k fs') = Except.error e
        rw [h]
      rw [e1, e2]
    | ok fs1 =>
      have e1 : fsSuccIter (k + 1 + 1) fs = fsSuccIter (k + 1) fs1 := by
        show (match fsSucc fs with
              | Except.error e => Except.error e
              | Except.ok fs' => fsSuccIter (k + 1) fs') = fsSuccIter (k + 1) fs1
        rw [h]
      have e2 : fsSuccIter (k + 1) fs = fsSuccIter k fs1 := by
        show (match fsSucc fs with
              | Except.error e => Except.error e
              | Except.ok fs' => fsSuccIter k fs') = fsSuccIter k fs1
        rw [h]
      rw [e1, e2]
      exact ihk fs1

theorem tuples_getElem_last (m n k : Nat) (hm : 0 < m)
    (hk : (tuplesFrom m n 0).length - 1 = k) (hik : k < (tuplesFrom m n 0).length) :
    (tuplesFrom m n 0)[k] = List.replicate n (m - 1) := by
  have h2 := tuples_getLast m n 0 hm
  rw [List.getLast?_eq_getElem?, hk, List.getElem?_eq_getElem hik] at h2
  exact Option.some_inj.mp h2



theorem fsSucc_exhaust (mm nn : Nat) (l : List Int) (hex : ∀ b ∈ l, b = (mm : Int) + 64) :
    fsSucc ⟨mm, nn, some l⟩ = .ok ⟨mm, nn, none⟩ := by
  simp [fsSucc, (succCode_eq_none_iff mm l).mpr hex]

theorem succCode_some_spec (m : Nat) (l l' : List Int) (h : succCode m l = some l') :
    ∃ i, ∃ hi : i < l.length, l[i] ≠ (m : Int) + 64 ∧
      (∀ j (hj : j < l.length), i < j → l[j] = (m : Int) + 64) ∧
      l' = l.take i ++ List.replicate (l.length - i) (toByte (l[i] + 1)) := by
  induction l generalizing l' with
  | nil => simp [succCode] at h
  | cons a t ih =>
    cases ht : succCode m t with
    | some t' =>
      simp only [succCode, ht] at h
      obtain rfl : a :: t' = l' := by simpa using h
      obtain ⟨i, hi, h1, h2, h3⟩ := ih t' ht
      refine ⟨i + 1, by simpa using Nat.succ_lt_succ hi, by simpa using h1, ?_, ?_⟩
      · intro j hj hij
        cases j with
        | zero => omega
        | succ j' =>
          have hj' : j' < t.length := by simpa using hj
          simpa using h2 j' hj' (by omega)
      · simp [h3, List.replicate]
    | none =>
      simp only [succCode, ht] at h
      by_cases ha : a = (m : Int) + 64
      · simp [ha] at h
      · simp only [if_neg ha] at h
        obtain rfl : toByte (a + 1) :: t.map (fun _ => toByte (a + 1)) = l' := by simpa using h
        have htall := (succCode_eq_none_iff m t).mp ht
        refine ⟨0, by simp, by simpa using ha, ?_, ?_⟩
        · intro j hj hij
          cases j with
          | zero => omega
          | succ j' =>
            have hj' : j' < t.length := by simpa using hj
            simpa using htall t[j'] (List.getElem_mem hj')
        · simp [List.map_const', List.replicate]

theorem succCode_encode (m : Nat) (hm63 : m ≤ 63) : ∀ l : List Nat, (∀ x ∈ l, x < m) →
    succCode m (encode l) = (succMode m l).map encode := by
  intro l
  induction l with
  | nil => intro hb; rfl
  | cons a t ih =>
    intro hb
    have hbt : ∀ x ∈ t, x < m := fun x hx => hb x (List.mem_cons_of_mem a hx)
    have ham : a < m := hb a (List.mem_cons_self a t)
    have hencons : encode (a :: t) = toByte ((a : Int) + 65) :: encode t := by simp [encode]
    have haId : toByte ((a : Int) + 65) = (a : Int) + 65 :=
      toByte_eq_self _ (by omega) (by omega)
    rw [hencons, haId]
    cases ht : succMode m t with
    | some t' =>
      have h1 : succCode m (encode t) = some (encode t') := by
        rw [ih hbt, ht]
        rfl
      simp only [succCode, h1, succMode, ht, Option.map_some']
      simp [encode, haId]
    | none =>
      have h1 : succCode m (encode t) = none := by
        rw [ih hbt, ht]
        rfl
      simp only [succCode, h1, succMode, ht]
      by_cases ha : a + 1 = m
      · have he : (a : Int) + 65 = (m : Int) + 64 := by omega
        rw [if_pos he, if_pos ha]
        rfl
      · have hne : ¬((a : Int) + 65 = (m : Int) + 64) := by omega
        have hle : a ≤ 61 := by omega
        have hsucc : toByte ((a : Int) + 65 + 1) = (a : Int) + 66 :=
          toByte_eq_self _ (by omega) (by omega)
        have hsucc2 : toByte (((a + 1 : Nat) : Int) + 65) = (a : Int) + 66 := by
          rw [show (((a + 1 : Nat) : Int) + 65) = (a : Int) + 66 by push_cast; ring]
          exact toByte_eq_self _ (by omega) (by omega)
        rw [if_neg hne, if_neg ha]
        simp only [Option.map_some', Option.some.injEq]
        have hrw : encode ((a + 1) :: t.map (fun _ => a + 1)) =
            toByte (((a + 1 : Nat) : Int) + 65) :: encode (t.map (fun _ => a + 1)) := by
          simp [encode]
        rw [hrw, List.cons_eq_cons]
        constructor
        · show toByte ((a : Int) + 65 + 1) = toByte (((a + 1 : Nat) : Int) + 65)
          rw [hsucc, hsucc2]
        · show (encode t).map (fun _ => toByte ((a : Int) + 65 + 1)) =
            encode (t.map (fun _ => a + 1))
          rw [hsucc]
          have hlhs : (encode t).map (fun _ => (a : Int) + 66) =
              List.replicate t.length ((a : Int) + 66) := by
            rw [List.map_const']
            simp [encode]
          have hrhs : encode (t.map (fun _ => a + 1)) =
              List.replicate t.length ((a : Int) + 66) := by
            unfold encode
            rw [List.map_map]
            have : ((fun i : Nat => toByte ((i : Int) + 65)) ∘ (fun _ : Nat => a + 1)) =
                (fun _ : Nat => toByte (((a + 1 : Nat) : Int) + 65)) := rfl
            rw [this, List.map_const', hsucc2]
          rw [hlhs, hrhs]

theorem runSucc_encode (m : Nat) (hm63 : m ≤ 63) : ∀ k (l : List Nat),
    (∀ x ∈ l, x < m) → List.Sorted (· ≤ ·) l →
    runSucc m k (encode l) = (runSuccMode m k l).map encode := by
  intro k
  induction k with
  | zero => intro l hb hs; rfl
  | succ k ih =>
    intro l hb hs
    cases ht : succMode m l with
    | none =>
      have h1 : succCode m (encode l) = none := by
        rw [succCode_encode m hm63 l hb, ht]
        rfl
      show (match succCode m (encode l) with
            | none => none
            | some l' => runSucc m k l') = _
      rw [h1]
      have h2 : runSuccMode m (k + 1) l = none := by
        show (match succMode m l with
              | none => none
              | some l' => runSuccMode m k l') = none
        rw [ht]
      rw [h2]
      rfl
    | some l' =>
      have h1 : succCode m (encode l) = some (encode l') := by
        rw [succCode_encode m hm63 l hb, ht]
        rfl
      obtain ⟨hs', hb', -, -⟩ := succMode_preserve m l l' ht hs hb
      show (match succCode m (encode l) with
            | none => none
            | some x => runSucc m k x) = _
      rw [h1]
      have h2 : runSuccMode m (k + 1) l = runSuccMode m k l' := by
        show (match succMode m l with
              | none => none
              | some x => runSuccMode m k x) = runSuccMode m k l'
        rw [ht]
      rw [h2]
      exact ih l' hb' hs'

theorem enum_count (m n : Nat) (hm : 0 < m) :
    Nat.choose (n + m - 1) (m - 1) = (tuplesFrom m n 0).length := by
  have hlen : (tuplesFrom m n 0).length = Nat.choose (n + m - 1) n := by
    have := tuples_length m n 0
    simpa using this
  rw [hlen]
  have h1 : m - 1 ≤ n + m - 1 := by omega
  have h2 : n + m - 1 - (m - 1) = n := by omega
  rw [← Nat.choose_symm h1, h2]

theorem enum_get (m n : Nat) (hm : 0 < m) (hm63 : m ≤ 63) :
    ∀ k, ∀ hk : k < (tuplesFrom m n 0).length,
      fsSuccIter k (mkFock m n) = .ok ⟨m, n, some (encode ((tuplesFrom m n 0)[k]))⟩ := by
  intro k hk
  have hmode := runSuccMode_get m (tuplesFrom m n 0) (tuples_chain m n 0) _
    (tuples_head m n 0 hm) k hk
  have hbounds : ∀ x ∈ List.replicate n 0, x < m := by
    intro x hx
    rw [List.eq_of_mem_replicate hx]
    exact hm
  have hsorted : List.Sorted (· ≤ ·) (List.replicate n 0) :=
    List.pairwise_replicate.mpr (Or.inr (le_refl 0))
  have hbyte : runSucc m k (encode (List.replicate n 0)) =
      some (encode ((tuplesFrom m n 0)[k])) := by
    rw [runSucc_encode m hm63 k _ hbounds hsorted, hmode]
    rfl
  have henc0 : encode (List.replicate n 0) = List.replicate n (65 : Int) := by
    unfold encode
    rw [List.map_replicate]
    norm_num [toByte]
  have hmk : mkFock m n = ⟨m, n, some (encode (List.replicate n 0))⟩ := by
    rw [mkFock, henc0]
  rw [hmk]
  exact fsSuccIter_of_runSucc m n k _ _ hbyte

/-- Counterexample to claim C1 as stated: at `m = 64`, `n = 1` the claim
demands Undefined after `C(64, 63) = 64` successor applications, but the
first exhaustion test already fails for wrapped bytes: the byte for mode
63 is `char(63 + 'A') = -128`, which never equals the `int`
`_m - 1 + 'A' = 128`, so `operator++` keeps bumping bytes and after 64
applications the state is the defined garbage buffer `[-127]`, not
Undefined. -/
theorem C1_counterexample :
    Nat.choose (1 + 64 - 1) (64 - 1) = 64 ∧
    fsSuccIter 64 (mkFock 64 1) = .ok ⟨64, 1, some [-127]⟩ ∧
    (Except.ok (⟨64, 1, some [-127]⟩ : fockstate) ≠
      (.ok ⟨64, 1, none⟩ : Except fserr fockstate)) := by
  refine ⟨by decide, by decide, by decide⟩

/-- Claim C1, amended: restricted to `1 ≤ m ≤ 63` — the range in which no
stored byte wraps, so the exhaustion comparison with the `int`
`_m - 1 + 'A'` can succeed.  There, from the all-zero state of `(m, n)`:
each application of `operator++` to a non-exhausted state bumps the last
byte differing from `m - 1 + 'A'` and copies the bumped byte over every
later position; after exactly `C(n+m-1, m-1)` applications the state
becomes Undefined; no two intermediate states coincide; and every
non-decreasing `n`-tuple over `[0, m)` appears (through its byte
encoding) exactly once.  The step-description and exhaustion-condition
clauses hold for every `m`. -/
theorem C1_amended_successor_enumeration (m n : Nat) (hm : 1 ≤ m) (hm63 : m ≤ 63) :
    (fsSuccIter (Nat.choose (n + m - 1) (m - 1)) (mkFock m n) = .ok ⟨m, n, none⟩) ∧
    (∀ k, k < Nat.choose (n + m - 1) (m - 1) →
      ∃ bs, fsSuccIter k (mkFock m n) = .ok ⟨m, n, some bs⟩) ∧
    (∀ j k lj lk, j < k → k < Nat.choose (n + m - 1) (m - 1) →
      fsSuccIter j (mkFock m n) = .ok ⟨m, n, some lj⟩ →
      fsSuccIter k (mkFock m n) = .ok ⟨m, n, some lk⟩ → lj ≠ lk) ∧
    (∀ l : List Nat, l.length = n → List.Sorted (· ≤ ·) l → (∀ x ∈ l, x < m) →
      ∃! k, k < Nat.choose (n + m - 1) (m - 1) ∧
        fsSuccIter k (mkFock m n) = .ok ⟨m, n, some (encode l)⟩) ∧
    (∀ bs bs' : List Int, succCode m bs = some bs' →
      ∃ i, ∃ hi : i < bs.length, bs[i] ≠ (m : Int) + 64 ∧
        (∀ j (hj : j < bs.length), i < j → bs[j] = (m : Int) + 64) ∧
        bs' = bs.take i ++ List.replicate (bs.length - i) (toByte (bs[i] + 1))) ∧
    (∀ bs : List Int, succCode m bs = none ↔ ∀ b ∈ bs, b = (m : Int) + 64) := by
  have h0m : 0 < m := hm
  have hC := enum_count m n h0m
  have hh := tuples_head m n 0 h0m
  have hne : tuplesFrom m n 0 ≠ [] := by
    intro hnil
    rw [hnil] at hh
    simp at hh
  have hpos : 0 < (tuplesFrom m n 0).length := List.length_pos.mpr hne
  have hinj : ∀ u v : List Nat, (∀ x ∈ u, x < m) → (∀ x ∈ v, x < m) →
      encode u = encode v → u = v := by
    intro u v hu hv h
    have hu' : encode u = u.map (fun i : Nat => (i : Int) + 65) := by
      unfold encode
      apply List.map_congr_left
      intro x hx
      exact toByte_eq_self _ (by omega) (by have := hu x hx; omega)
    have hv' : encode v = v.map (fun i : Nat => (i : Int) + 65) := by
      unfold encode
      apply List.map_congr_left
      intro x hx
      exact toByte_eq_self _ (by omega) (by have := hv x hx; omega)
    rw [hu', hv'] at h
    have hfinj : Function.Injective (fun i : Nat => (i : Int) + 65) := by
      intro x y hxy
      simp at hxy
      omega
    exact List.map_injective_iff.mpr hfinj h
  have hmem_bounds : ∀ k, ∀ hk : k < (tuplesFrom m n 0).length,
      ∀ x ∈ (tuplesFrom m n 0)[k], x < m := by
    intro k hk x hx
    have hmem : (tuplesFrom m n 0)[k] ∈ tuplesFrom m n 0 := List.getElem_mem hk
    exact ((tuples_mem m n 0 _).mp hmem).2.2 x hx |>.2
  refine ⟨?_, ?_, ?_, ?_, ?_, ?_⟩
  · rw [hC]
    obtain ⟨len1, hlen1⟩ : ∃ x, (tuplesFrom m n 0).length = x + 1 :=
      ⟨(tuplesFrom m n 0).length - 1, by omega⟩
    rw [hlen1, fsSuccIter_succ_right, enum_get m n h0m hm63 len1 (by omega)]
    show fsSucc ⟨m, n, some (encode ((tuplesFrom m n 0)[len1]))⟩ = .ok ⟨m, n, none⟩
    rw [tuples_getElem_last m n len1 h0m (by omega) (by omega)]
    refine fsSucc_exhaust m n _ (fun z hz => ?_)
    obtain ⟨x, hx, rfl⟩ := List.mem_map.mp hz
    rw [List.eq_of_mem_replicate hx]
    rw [toByte_eq_self _ (by omega) (by omega)]
    omega
  · intro k hk
    rw [hC] at hk
    exact ⟨_, enum_get m n h0m hm63 k hk⟩
  · intro j k lj lk hjk hk hitj hitk
    rw [hC] at hk
    have hj : j < (tuplesFrom m n 0).length := by omega
    have hLj : encode ((tuplesFrom m n 0)[j]) = lj := by
      have := (enum_get m n h0m hm63 j hj).symm.trans hitj
      simpa using this
    have hLk : encode ((tuplesFrom m n 0)[k]) = lk := by
      have := (enum_get m n h0m hm63 k hk).symm.trans hitk
      simpa using this
    intro heq
    have henc : encode ((tuplesFrom m n 0)[j]) = encode ((tuplesFrom m n 0)[k]) := by
      rw [hLj, hLk, heq]
    have hmodes : (tuplesFrom m n 0)[j] = (tuplesFrom m n 0)[k] :=
      hinj _ _ (hmem_bounds j hj) (hmem_bounds k hk) henc
    have := ((tuples_nodup m n 0).getElem_inj_iff).mp hmodes
    omega
  · intro l hlen' hsort hbnd
    have hmem : l ∈ tuplesFrom m n 0 :=
      (tuples_mem m n 0 l).mpr ⟨hlen', hsort, fun x hx => ⟨Nat.zero_le x, hbnd x hx⟩⟩
    obtain ⟨k, hk, hkl⟩ := List.mem_iff_getElem.mp hmem
    refine ⟨k, ⟨by rw [hC]; exact hk, ?_⟩, ?_⟩
    · have := enum_get m n h0m hm63 k hk
      rw [hkl] at this
      exact this
    · rintro y ⟨hy1, hy2⟩
      rw [hC] at hy1
      have hLy : encode ((tuplesFrom m n 0)[y]) = encode l := by
        have := (enum_get m n h0m hm63 y hy1).symm.trans hy2
        simpa using this
      have hmodes : (tuplesFrom m n 0)[y] = l :=
        hinj _ _ (hmem_bounds y hy1) hbnd hLy
      have : (tuplesFrom m n 0)[y] = (tuplesFrom m n 0)[k] := by rw [hmodes, hkl]
      exact ((tuples_nodup m n 0).getElem_inj_iff).mp this
  · intro bs bs' h
    exact succCode_some_spec m bs bs' h
  · intro bs
    exact succCode_eq_none_iff m bs

/-- Witness for the amended C1 at `m = 2`, `n = 1` (`C(2,1) = 2` states,
then Undefined). -/
theorem C1_amended_successor_enumeration_witness :
    fsSuccIter (Nat.choose (1 + 2 - 1) (2 - 1)) (mkFock 2 1) = .ok ⟨2, 1, none⟩ :=
  (C1_amended_successor_enumeration 2 1 (by decide) (by decide)).1

theorem sorted_takeWhile_lt (l : List Int) (c : Int) (hs : List.Sorted (· ≤ ·) l) :
    l.takeWhile (fun x => decide (x < c)) = l.filter (fun x => decide (x < c)) := by
  induction l with
  | nil => rfl
  | cons a t ih =>
    have hat : ∀ y ∈ t, a ≤ y := List.rel_of_sorted_cons hs
    by_cases ha : a < c
    · simp only [List.takeWhile_cons, List.filter_cons, decide_eq_true_eq, if_pos ha]
      rw [ih hs.of_cons]
    · simp only [List.takeWhile_cons, List.filter_cons, decide_eq_true_eq, if_neg ha]
      symm
      rw [List.filter_eq_nil_iff]
      intro x hx
      have := hat x hx
      simp only [decide_eq_true_eq]
      omega

theorem sorted_dropWhile_lt (l : List Int) (c : Int) (hs : List.Sorted (· ≤ ·) l) :
    l.dropWhile (fun x => decide (x < c)) = l.filter (fun x => decide (c ≤ x)) := by
  induction l with
  | nil => rfl
  | cons a t ih =>
    have hat : ∀ y ∈ t, a ≤ y := List.rel_of_sorted_cons hs
    by_cases ha : a < c
    · have hca : ¬ c ≤ a := by omega
      simp only [List.dropWhile_cons, List.filter_cons, decide_eq_true_eq, if_pos ha,
        if_neg hca]
      exact ih hs.of_cons
    · have hca : c ≤ a := by omega
      simp only [List.dropWhile_cons, List.filter_cons, decide_eq_true_eq, if_neg ha,
        if_pos hca]
      symm
      rw [List.cons_eq_cons]
      refine ⟨rfl, ?_⟩
      rw [List.filter_eq_self]
      intro x hx
      have := hat x hx
      simp only [decide_eq_true_eq]
      omega

theorem sorted_three_split (l : List Int) (s e : Int) (hs : List.Sorted (· ≤ ·) l) :
    l = l.filter (fun x => decide (x < s)) ++
        l.filter (fun x => decide (s ≤ x) && decide (x < e)) ++
        l.filter (fun x => decide (s ≤ x) && decide (e ≤ x)) := by
  induction l with
  | nil => rfl
  | cons a t ih =>
    have hat : ∀ y ∈ t, a ≤ y := List.rel_of_sorted_cons hs
    have iht := ih hs.of_cons
    simp only [List.filter_cons, Bool.and_eq_true, decide_eq_true_eq]
    by_cases h1 : a < s
    · have h1' : ¬ (s ≤ a ∧ a < e) := by omega
      have h1'' : ¬ (s ≤ a ∧ e ≤ a) := by omega
      rw [if_pos h1, if_neg h1', if_neg h1'']
      rw [List.cons_append, List.cons_append, List.cons_eq_cons]
      exact ⟨rfl, iht⟩
    · have hsa : s ≤ a := by omega
      have hf1 : t.filter (fun x => decide (x < s)) = [] := by
        rw [List.filter_eq_nil_iff]
        intro x hx
        have := hat x hx
        simp only [decide_eq_true_eq]
        omega
      rw [hf1] at iht
      rw [List.nil_append] at iht
      by_cases h2 : a < e
      · have hp : s ≤ a ∧ a < e := ⟨hsa, h2⟩
        have h2' : ¬ (s ≤ a ∧ e ≤ a) := by omega
        rw [if_neg h1, if_pos hp, if_neg h2', hf1]
        rw [List.nil_append, List.cons_append, List.cons_eq_cons]
        exact ⟨rfl, iht⟩
      · have h2' : e ≤ a := by omega
        have hp : s ≤ a ∧ e ≤ a := ⟨hsa, h2'⟩
        have hpm : ¬ (s ≤ a ∧ a < e) := by omega
        have hfmid : t.filter (fun x => decide (s ≤ x) && decide (x < e)) = [] := by
          rw [List.filter_eq_nil_iff]
          intro x hx
          have := hat x hx
          simp only [Bool.and_eq_true, decide_eq_true_eq, not_and]
          intro _
          omega
        rw [hfmid] at iht
        rw [List.nil_append] at iht
        rw [if_neg h1, if_neg hpm, if_pos hp, hf1, hfmid]
        rw [List.nil_append, List.nil_append, List.cons_eq_cons]
        exact ⟨rfl, iht⟩

theorem clampStart_of_nonneg (m : Nat) (v : Int) (h : 0 ≤ v) : clampStart m v = v.toNat := by
  have h1 : ¬ (v < 0) := by omega
  simp [clampStart, h1]

theorem clampEnd_of_range (m : Nat) (v : Int) (h0 : 0 ≤ v) (hm : v ≤ (m : Int)) :
    clampEnd m v = v.toNat := by
  have h1 : ¬ (v < 0) := by omega
  have h2 : ¬ (v > (m : Int)) := by omega
  simp [clampEnd, h1, h2]

theorem sliceM_one (s e : Nat) : sliceM s e 1 = e - s := by
  simp [sliceM]

theorem slicePred_one (s e : Nat) (l : List Int) :
    l.filter (slicePred s e 1) =
      l.filter (fun b => decide ((s : Int) + 65 ≤ b) && decide (b < (e : Int) + 65)) := by
  apply List.filter_congr
  intro x hx
  simp [slicePred]

theorem fsSlice_some (fs : fockstate) (l : List Int) (hc : fs.code = some l)
    (start stop : Int) (step : Nat) :
    fsSlice fs start stop step =
      if (l.filter (slicePred (clampStart fs.m start) (clampEnd fs.m stop) step)).length = 0
      then .ok ⟨sliceM (clampStart fs.m start) (clampEnd fs.m stop) step, 0, some []⟩
      else .ok ⟨sliceM (clampStart fs.m start) (clampEnd fs.m stop) step,
        (l.filter (slicePred (clampStart fs.m start) (clampEnd fs.m stop) step)).length,
        some ((l.filter (slicePred (clampStart fs.m start) (clampEnd fs.m stop) step)).map
          (fun b => toByte ((b - (clampStart fs.m start : Int) - 65) / (step : Int) + 65)))⟩ := by
  simp only [fsSlice, hc]

theorem fsEq_of_eq_parts (r fs : fockstate) (hm : r.m = fs.m) (hn : r.n = fs.n)
    (lr lf : List Int) (hcr : r.code = some lr) (hcf : fs.code = some lf) (hl : lr = lf) :
    fsEq r fs = true := by
  unfold fsEq
  rw [hcr, hcf]
  have h1 : ¬(r.m ≠ fs.m ∨ r.n ≠ fs.n) := by simp [hm, hn]
  rw [if_neg h1]
  by_cases h2 : r.m = 0 ∧ fs.m = 0
  · rw [if_pos h2]
  · rw [if_neg h2]
    simp [hl]

theorem fsSetSlice_fields (fs : fockstate) (l : List Int) (hc : fs.code = some l)
    (rm rn : Nat) (rc : Option (List Int)) (start stop : Int) :
    fsSetSlice fs ⟨rm, rn, rc⟩ start stop =
      if sliceM (clampStart fs.m start) (clampEnd fs.m stop) 1 ≠ rm
      then .error (.invalidArgument ("invalid fockstate to replace in slice"))
      else if fs.n - (l.filter (slicePred (clampStart fs.m start) (clampEnd fs.m stop) 1)).length
              + rn = 0
      then .ok ⟨fs.m, 0, some []⟩
      else .ok ⟨fs.m,
        fs.n - (l.filter (slicePred (clampStart fs.m start) (clampEnd fs.m stop) 1)).length + rn,
        some (l.takeWhile (fun b => decide (b < (clampStart fs.m start : Int) + 65)) ++
              (rc.getD []).map (fun b => toByte (b + (clampStart fs.m start : Int))) ++
              ((l.dropWhile (fun b => decide (b < (clampStart fs.m start : Int) + 65))).dropWhile
                 (fun b => decide (b < (clampEnd fs.m stop : Int) + 65))))⟩ := by
  simp only [fsSetSlice, hc]

/-- Counterexample to claim C6 as stated: the state built from the
occupation vector with one particle in mode 0 and one in mode 63 stores
the wrapped byte `char(63 + 'A') = -128` for mode 63; over the full
window `[0, 64)` the wrapped byte fails the filter
`b >= start + 'A'` (it is below `'A'`), so `slice(0, 64, 1)` drops that
particle and `set_slice` rebuilds a state whose buffer holds a single
byte while `_n` is still 2; the roundtrip result is not equal to the
original. -/
theorem C6_counterexample :
    fockstateOfVect ([1] ++ List.replicate 62 0 ++ [1]) = ⟨64, 2, some [65, -128]⟩ ∧
    fsSlice ⟨64, 2, some [65, -128]⟩ 0 64 1 = .ok ⟨64, 1, some [65]⟩ ∧
    fsSetSlice ⟨64, 2, some [65, -128]⟩ ⟨64, 1, some [65]⟩ 0 64 = .ok ⟨64, 2, some [65]⟩ ∧
    fsEq ⟨64, 2, some [65]⟩ ⟨64, 2, some [65, -128]⟩ = false := by
  refine ⟨by decide, by decide, by decide, by decide⟩

/-- Claim C6, amended: restricted to `m ≤ 63`, where every byte of an
invariant-satisfying buffer lies in `[65, 128)` unwrapped.  For such a
defined state and any `0 ≤ start < end ≤ modes`,
`set_slice(slice(start, end, 1), start, end)` succeeds and returns a
state equal to the original. -/
theorem C6_amended_slice_set_slice_roundtrip (fs : fockstate) (l : List Int) (start stop : Int)
    (hc : fs.code = some l) (hw : fswf fs) (hm63 : fs.m ≤ 63)
    (h0 : 0 ≤ start) (hlt : start < stop) (hstop : stop ≤ (fs.m : Int)) :
    ∃ sl r, fsSlice fs start stop 1 = .ok sl ∧ fsSetSlice fs sl start stop = .ok r ∧
      fsEq r fs = true := by
  obtain ⟨hlen, hsort, hbnd⟩ := fswf_some fs l hc hw
  have hcs : clampStart fs.m start = start.toNat := clampStart_of_nonneg fs.m start h0
  have hce : clampEnd fs.m stop = stop.toNat := clampEnd_of_range fs.m stop (by omega) hstop
  have hK : (l.filter (fun b => decide ((start.toNat : Int) + 65 ≤ b) &&
      decide (b < (stop.toNat : Int) + 65))).length ≤ fs.n := by
    rw [← hlen]
    exact List.length_filter_le _ l
  have hmap : ((l.filter (fun b => decide ((start.toNat : Int) + 65 ≤ b) &&
          decide (b < (stop.toNat : Int) + 65))).map
        (fun b => toByte ((b - (start.toNat : Int) - 65) / (1 : Int) + 65))).map
        (fun b => toByte (b + (start.toNat : Int))) =
      l.filter (fun b => decide ((start.toNat : Int) + 65 ≤ b) &&
        decide (b < (stop.toNat : Int) + 65)) := by
    rw [List.map_map]
    have hpt : ∀ b ∈ l.filter (fun b => decide ((start.toNat : Int) + 65 ≤ b) &&
        decide (b < (stop.toNat : Int) + 65)),
        ((fun b => toByte (b + (start.toNat : Int))) ∘
          (fun b => toByte ((b - (start.toNat : Int) - 65) / (1 : Int) + 65))) b = b := by
      intro b hb
      have hmem := List.mem_filter.mp hb
      have hpr := hmem.2
      simp only [Bool.and_eq_true, decide_eq_true_eq] at hpr
      have hrange := hbnd b hmem.1
      have hdiv : (b - (start.toNat : Int) - 65) / (1 : Int) + 65 = b - (start.toNat : Int) := by
        rw [Int.ediv_one]
        ring
      simp only [Function.comp_apply, hdiv]
      have h1 : toByte (b - (start.toNat : Int)) = b - (start.toNat : Int) :=
        toByte_eq_self _ (by omega) (by omega)
      rw [h1]
      have h2 : b - (start.toNat : Int) + (start.toNat : Int) = b := by ring
      rw [h2]
      exact toByte_eq_self _ (by omega) (by omega)
    rw [List.map_congr_left hpt, List.map_id']
  have hsl : fsSlice fs start stop 1 =
      .ok ⟨stop.toNat - start.toNat,
        (l.filter (fun b => decide ((start.toNat : Int) + 65 ≤ b) &&
          decide (b < (stop.toNat : Int) + 65))).length,
        some ((l.filter (fun b => decide ((start.toNat : Int) + 65 ≤ b) &&
          decide (b < (stop.toNat : Int) + 65))).map
          (fun b => toByte ((b - (start.toNat : Int) - 65) / (1 : Int) + 65)))⟩ := by
    rw [fsSlice_some fs l hc start stop 1, hcs, hce, sliceM_one, slicePred_one]
    by_cases hz : (l.filter (fun b => decide ((start.toNat : Int) + 65 ≤ b) &&
        decide (b < (stop.toNat : Int) + 65))).length = 0
    · rw [if_pos hz, hz]
      obtain hnil := List.length_eq_zero.mp hz
      rw [hnil]
      rfl
    · rw [if_neg hz]
      norm_num
  have hsetunf := fsSetSlice_fields fs l hc (stop.toNat - start.toNat)
    (l.filter (fun b => decide ((start.toNat : Int) + 65 ≤ b) &&
      decide (b < (stop.toNat : Int) + 65))).length
    (some ((l.filter (fun b => decide ((start.toNat : Int) + 65 ≤ b) &&
      decide (b < (stop.toNat : Int) + 65))).map
      (fun b => toByte ((b - (start.toNat : Int) - 65) / (1 : Int) + 65)))) start stop
  rw [hcs, hce, sliceM_one, slicePred_one, if_neg (by simp)] at hsetunf
  by_cases hn0 : fs.n = 0
  · rw [if_pos (by omega)] at hsetunf
    have hlnil : l = [] := List.length_eq_zero.mp (by omega)
    refine ⟨_, ⟨fs.m, 0, some []⟩, hsl, hsetunf, ?_⟩
    exact fsEq_of_eq_parts _ fs rfl (by simp [hn0]) [] l rfl hc (by rw [hlnil])
  · rw [if_neg (by omega)] at hsetunf
    refine ⟨_, _, hsl, hsetunf, ?_⟩
    have hcode : l.takeWhile (fun b => decide (b < (start.toNat : Int) + 65)) ++
        ((some ((l.filter (fun b => decide ((start.toNat : Int) + 65 ≤ b) &&
            decide (b < (stop.toNat : Int) + 65))).map
            (fun b => toByte ((b - (start.toNat : Int) - 65) / (1 : Int) + 65)))).getD []).map
          (fun b => toByte (b + (start.toNat : Int))) ++
        ((l.dropWhile (fun b => decide (b < (start.toNat : Int) + 65))).dropWhile
            (fun b => decide (b < (stop.toNat : Int) + 65))) = l := by
      rw [Option.getD_some, hmap, sorted_takeWhile_lt l ((start.toNat : Int) + 65) hsort]
      rw [sorted_dropWhile_lt l ((start.toNat : Int) + 65) hsort]
      rw [sorted_dropWhile_lt _ ((stop.toNat : Int) + 65) (hsort.filter _)]
      rw [List.filter_filter]
      have hupper : l.filter (fun b => decide ((stop.toNat : Int) + 65 ≤ b) &&
          decide ((start.toNat : Int) + 65 ≤ b)) =
          l.filter (fun b => decide ((start.toNat : Int) + 65 ≤ b) &&
            decide ((stop.toNat : Int) + 65 ≤ b)) := by
        apply List.filter_congr
        intro x hx
        rw [Bool.and_comm]
      rw [hupper]
      exact (sorted_three_split l ((start.toNat : Int) + 65) ((stop.toNat : Int) + 65) hsort).symm
    refine fsEq_of_eq_parts _ fs rfl ?_ _ l rfl hc hcode
    show fs.n - (l.filter (fun b => decide ((start.toNat : Int) + 65 ≤ b) &&
        decide (b < (stop.toNat : Int) + 65))).length
        + (l.filter (fun b => decide ((start.toNat : Int) + 65 ≤ b) &&
          decide (b < (stop.toNat : Int) + 65))).length = fs.n
    omega

/-- Witness for the amended C6: state with m = 2, n = 1, one particle in
mode 0 (byte 65), sliced and re-spliced over `[0, 1)`. -/
theorem C6_amended_slice_set_slice_roundtrip_witness :
    ∃ sl r, fsSlice ⟨2, 1, some [65]⟩ 0 1 1 = .ok sl ∧
      fsSetSlice ⟨2, 1, some [65]⟩ sl 0 1 = .ok r ∧ fsEq r ⟨2, 1, some [65]⟩ = true :=
  C6_amended_slice_set_slice_roundtrip ⟨2, 1, some [65]⟩ [65] 0 1 rfl
    ⟨rfl, by decide, by decide⟩ (by decide) (by decide) (by decide) (by decide)

theorem codeOfVectFrom_length (v : List Nat) : ∀ i, (codeOfVectFrom i v).length = v.sum := by
  induction v with
  | nil => intro i; rfl
  | cons c t ih => intro i; simp [codeOfVectFrom, ih]

theorem codeOfVectFrom_mem (v : List Nat) :
    ∀ i, i + v.length ≤ 63 → ∀ b ∈ codeOfVectFrom i v,
      (i : Int) + 65 ≤ b ∧ b < (i : Int) + v.length + 65 := by
  induction v with
  | nil => intro i hi b hb; simp [codeOfVectFrom] at hb
  | cons c t ih =>
    intro i hi b hb
    simp only [List.length_cons] at hi
    simp only [codeOfVectFrom, List.mem_append] at hb
    simp only [List.length_cons]
    rcases hb with hb | hb
    · have hbe := List.eq_of_mem_replicate hb
      subst hbe
      have htb : toByte ((i : Int) + 65) = (i : Int) + 65 :=
        toByte_eq_self _ (by omega) (by omega)
      rw [htb]
      constructor
      · omega
      · omega
    · have := ih (i + 1) (by omega) b hb
      push_cast at this ⊢
      omega

theorem codeOfVectFrom_sorted (v : List Nat) :
    ∀ i, i + v.length ≤ 63 → List.Sorted (· ≤ ·) (codeOfVectFrom i v) := by
  induction v with
  | nil => intro i hi; exact List.sorted_nil
  | cons c t ih =>
    intro i hi
    simp only [List.length_cons] at hi
    simp only [codeOfVectFrom]
    rw [List.Sorted, List.pairwise_append]
    refine ⟨List.pairwise_replicate.mpr (Or.inr (le_refl _)), ih (i + 1) (by omega), ?_⟩
    intro x hx y hy
    rw [List.eq_of_mem_replicate hx]
    have hy' := (codeOfVectFrom_mem t (i + 1) (by omega) y hy).1
    have htb : toByte ((i : Int) + 65) = (i : Int) + 65 :=
      toByte_eq_self _ (by omega) (by omega)
    rw [htb]
    push_cast at hy'
    omega

theorem fswf_ofVect (v : List Nat) (hv : v.length ≤ 63) : fswf (fockstateOfVect v) := by
  refine ⟨codeOfVectFrom_length v 0, codeOfVectFrom_sorted v 0 (by omega), ?_⟩
  intro b hb
  have h := codeOfVectFrom_mem v 0 (by omega) b hb
  show 65 ≤ b ∧ b < (v.length : Int) + 65
  omega

theorem succCode_preserve (m : Nat) (hm63 : m ≤ 63) (l l' : List Int)
    (h : succCode m l = some l') (hs : List.Sorted (· ≤ ·) l)
    (hb : ∀ b ∈ l, 65 ≤ b ∧ b < (m : Int) + 65) :
    List.Sorted (· ≤ ·) l' ∧ (∀ b ∈ l', 65 ≤ b ∧ b < (m : Int) + 65) ∧
      l'.length = l.length ∧ (∀ y ∈ l', ∃ x ∈ l, x ≤ y) := by
  induction l generalizing l' with
  | nil => simp [succCode] at h
  | cons a t ih =>
    have hst : List.Sorted (· ≤ ·) t := hs.of_cons
    have hat : ∀ y ∈ t, a ≤ y := List.rel_of_sorted_cons hs
    have hbt : ∀ b ∈ t, 65 ≤ b ∧ b < (m : Int) + 65 :=
      fun b hb' => hb b (List.mem_cons_of_mem a hb')
    cases ht : succCode m t with
    | some t' =>
      simp only [succCode, ht] at h
      obtain rfl : a :: t' = l' := by simpa using h
      obtain ⟨hs', hb', hl', hg'⟩ := ih t' ht hst hbt
      refine ⟨?_, ?_, by simp [hl'], ?_⟩
      · refine List.sorted_cons.mpr ⟨?_, hs'⟩
        intro y hy
        obtain ⟨x, hx, hxy⟩ := hg' y hy
        exact le_trans (hat x hx) hxy
      · intro x hx
        rcases List.mem_cons.mp hx with rfl | hx'
        · exact hb x (List.mem_cons_self x t)
        · exact hb' x hx'
      · intro y hy
        rcases List.mem_cons.mp hy with rfl | hy'
        · exact ⟨y, List.mem_cons_self y t, le_refl y⟩
        · obtain ⟨x, hx, hxy⟩ := hg' y hy'
          exact ⟨x, List.mem_cons_of_mem a hx, hxy⟩
    | none =>
      simp only [succCode, ht] at h
      by_cases ha : a = (m : Int) + 64
      · simp [ha] at h
      · rw [if_neg ha] at h
        obtain rfl : toByte (a + 1) :: t.map (fun _ => toByte (a + 1)) = l' := by simpa using h
        have hab := hb a (List.mem_cons_self a t)
        have htb : toByte (a + 1) = a + 1 := toByte_eq_self _ (by omega) (by omega)
        rw [htb]
        refine ⟨?_, ?_, by simp, ?_⟩
        · refine List.sorted_cons.mpr ⟨?_, ?_⟩
          · intro y hy
            obtain ⟨x, -, rfl⟩ := List.mem_map.mp hy
            exact le_refl _
          · rw [List.map_const']
            exact List.pairwise_replicate.mpr (Or.inr (le_refl _))
        · intro x hx
          rcases List.mem_cons.mp hx with rfl | hx'
          · exact ⟨by omega, by omega⟩
          · obtain ⟨y, -, rfl⟩ := List.mem_map.mp hx'
            exact ⟨by omega, by omega⟩
        · intro y hy
          rcases List.mem_cons.mp hy with rfl | hy'
          · exact ⟨a, List.mem_cons_self a t, by omega⟩
          · obtain ⟨x, -, rfl⟩ := List.mem_map.mp hy'
            exact ⟨a, List.mem_cons_self a t, by omega⟩

theorem fsSucc_wf (fs fs' : fockstate) (hm63 : fs.m ≤ 63) (hw : fswf fs)
    (h : fsSucc fs = .ok fs') : fswf fs' := by
  cases hc : fs.code with
  | none => simp [fsSucc, hc] at h
  | some l =>
    simp only [fsSucc, hc] at h
    obtain ⟨hlen, hsort, hbnd⟩ := fswf_some fs l hc hw
    cases hs : succCode fs.m l with
    | none =>
      rw [hs] at h
      injection h with h'
      subst h'
      trivial
    | some l2 =>
      rw [hs] at h
      injection h with h'
      subst h'
      obtain ⟨hs', hb', hl', -⟩ := succCode_preserve fs.m hm63 l l2 hs hsort hbnd
      exact ⟨by rw [hl', hlen], hs', hb'⟩

theorem fsMul_wf (a b c : fockstate) (hm63 : a.m + b.m ≤ 63) (hwa : fswf a) (hwb : fswf b)
    (h : fsMul a b = .ok c) : fswf c := by
  unfold fsMul at h
  cases hca : a.code with
  | none => cases hcb : b.code <;> rw [hca, hcb] at h <;> cases h
  | some la =>
    cases hcb : b.code with
    | none => rw [hca, hcb] at h; cases h
    | some lb =>
      rw [hca, hcb] at h
      injection h with h'
      subst h'
      obtain ⟨hla, hsa, hba⟩ := fswf_some a la hca hwa
      obtain ⟨hlb, hsb, hbb⟩ := fswf_some b lb hcb hwb
      have hmap : lb.map (fun x => toByte (x + (a.m : Int))) =
          lb.map (fun x => x + (a.m : Int)) := by
        apply List.map_congr_left
        intro x hx
        have := hbb x hx
        exact toByte_eq_self _ (by omega) (by omega)
      refine ⟨?_, ?_, ?_⟩
      · show (la ++ lb.map (fun x => toByte (x + (a.m : Int)))).length = a.n + b.n
        simp [hla, hlb]
      · show List.Sorted (· ≤ ·) (la ++ lb.map (fun x => toByte (x + (a.m : Int))))
        rw [hmap, List.Sorted, List.pairwise_append]
        refine ⟨hsa, ?_, ?_⟩
        · exact List.pairwise_map.mpr (hsb.imp (fun hxy => by omega))
        · intro x hx y hy
          obtain ⟨z, hz, rfl⟩ := List.mem_map.mp hy
          have hxa := hba x hx
          have hzb := hbb z hz
          omega
      · show ∀ x ∈ la ++ lb.map (fun x => toByte (x + (a.m : Int))),
            65 ≤ x ∧ x < ((a.m + b.m : Nat) : Int) + 65
        rw [hmap]
        intro x hx
        rcases List.mem_append.mp hx with hx | hx
        · have := hba x hx
          exact ⟨by omega, by omega⟩
        · obtain ⟨z, hz, rfl⟩ := List.mem_map.mp hx
          have := hbb z hz
          exact ⟨by omega, by omega⟩

theorem slice_bound (s e st z : Nat) (hst : 1 ≤ st) (hs : s ≤ z) (hz : z < e)
    (hmod : st = 1 ∨ (z - s) % st = 0) : (z - s) / st < sliceM s e st := by
  unfold sliceM
  rcases hmod with rfl | hmod
  · simp only [Nat.div_one]
    omega
  · have hdvd : st ∣ (z - s) := Nat.dvd_of_mod_eq_zero hmod
    have h1 : (z - s) / st * st = z - s := Nat.div_mul_cancel hdvd
    have h2 : e - s + st - 1 = (e - s - 1) + st := by omega
    rw [h2, Nat.add_div_right _ (by omega)]
    have h3 : (z - s) / st ≤ (e - s - 1) / st := Nat.div_le_div_right (by omega)
    omega

theorem clampEnd_le (m : Nat) (v : Int) : clampEnd m v ≤ m := by
  unfold clampEnd
  by_cases h1 : v < 0 <;> by_cases h2 : v + (m : Int) < 0 <;>
    by_cases h3 : v > (m : Int) <;> simp only [h1, h2, h3, if_true, if_false] <;> omega

theorem fsSlice_wf (fs c : fockstate) (start stop : Int) (step : Nat) (hm63 : fs.m ≤ 63)
    (hstep : 1 ≤ step) (hw : fswf fs) (h : fsSlice fs start stop step = .ok c) : fswf c := by
  cases hc : fs.code with
  | none => unfold fsSlice at h; rw [hc] at h; cases h
  | some l =>
    rw [fsSlice_some fs l hc start stop step] at h
    obtain ⟨hlen, hsort, hbnd⟩ := fswf_some fs l hc hw
    by_cases hz : (l.filter (slicePred (clampStart fs.m start) (clampEnd fs.m stop) step)).length
        = 0
    · rw [if_pos hz] at h
      injection h with h'
      subst h'
      exact ⟨rfl, List.sorted_nil, by simp⟩
    · rw [if_neg hz] at h
      injection h with h'
      subst h'
      have hEm : clampEnd fs.m stop ≤ fs.m := clampEnd_le fs.m stop
      have hsel : ∀ b ∈ l.filter (slicePred (clampStart fs.m start) (clampEnd fs.m stop) step),
          ((clampStart fs.m start : Int) + 65 ≤ b ∧ b < (clampEnd fs.m stop : Int) + 65) ∧
            (step = 1 ∨ (b - (clampStart fs.m start : Int) - 65) % (step : Int) = 0) := by
        intro b hb
        have hpr := (List.mem_filter.mp hb).2
        simp only [slicePred, Bool.and_eq_true, Bool.or_eq_true, decide_eq_true_eq] at hpr
        exact ⟨⟨hpr.1.1, hpr.1.2⟩, hpr.2⟩
      have hqb : ∀ b ∈ l.filter (slicePred (clampStart fs.m start) (clampEnd fs.m stop) step),
          0 ≤ (b - (clampStart fs.m start : Int) - 65) / (step : Int) ∧
          (b - (clampStart fs.m start : Int) - 65) / (step : Int)
            < (sliceM (clampStart fs.m start) (clampEnd fs.m stop) step : Int) := by
        intro b hb
        obtain ⟨⟨hlo, hhi⟩, hmod⟩ := hsel b hb
        obtain ⟨dn, hdn⟩ : ∃ dn : Nat, b - (clampStart fs.m start : Int) - 65 = (dn : Int) :=
          ⟨(b - (clampStart fs.m start : Int) - 65).toNat, by omega⟩
        constructor
        · rw [hdn]
          exact Int.ediv_nonneg (by omega) (by omega)
        · have hdiv : (dn : Int) / (step : Int) = ((dn / step : Nat) : Int) :=
            (Int.ofNat_ediv dn step).symm
          have hmodn : step = 1 ∨ dn % step = 0 := by
            rcases hmod with h1 | h1
            · exact Or.inl h1
            · right
              rw [hdn] at h1
              have h2 : ((dn % step : Nat) : Int) = (dn : Int) % (step : Int) :=
                Int.ofNat_emod dn step
              rw [← h2] at h1
              exact_mod_cast h1
          have hb1 : clampStart fs.m start ≤ dn + clampStart fs.m start := by omega
          have hb2 : dn + clampStart fs.m start < clampEnd fs.m stop := by omega
          have hsb := slice_bound (clampStart fs.m start) (clampEnd fs.m stop) step
            (dn + clampStart fs.m start) hstep hb1 hb2 (by simpa using hmodn)
          rw [hdn, hdiv]
          simp only [Nat.add_sub_cancel] at hsb
          omega
      have hmapc : (l.filter (slicePred (clampStart fs.m start) (clampEnd fs.m stop) step)).map
            (fun b => toByte ((b - (clampStart fs.m start : Int) - 65) / (step : Int) + 65)) =
          (l.filter (slicePred (clampStart fs.m start) (clampEnd fs.m stop) step)).map
            (fun b => (b - (clampStart fs.m start : Int) - 65) / (step : Int) + 65) := by
        apply List.map_congr_left
        intro b hb
        obtain ⟨⟨hlo, hhi⟩, -⟩ := hsel b hb
        obtain ⟨hq0, -⟩ := hqb b hb
        have hdle : (b - (clampStart fs.m start : Int) - 65) / (step : Int)
            ≤ b - (clampStart fs.m start : Int) - 65 :=
          Int.ediv_le_self _ (by omega)
        exact toByte_eq_self _ (by omega) (by omega)
      refine ⟨by simp, ?_, ?_⟩
      · show List.Sorted (· ≤ ·)
          ((l.filter (slicePred (clampStart fs.m start) (clampEnd fs.m stop) step)).map
            (fun b => toByte ((b - (clampStart fs.m start : Int) - 65) / (step : Int) + 65)))
        rw [hmapc]
        refine List.pairwise_map.mpr ?_
        refine (hsort.filter _).imp ?_
        intro x y hxy
        have h1 : x - (clampStart fs.m start : Int) - 65 ≤ y - (clampStart fs.m start : Int) - 65 :=
          by omega
        have h2 := Int.ediv_le_ediv (c := (step : Int)) (by omega) h1
        omega
      · show ∀ x ∈ (l.filter (slicePred (clampStart fs.m start) (clampEnd fs.m stop) step)).map
            (fun b => toByte ((b - (clampStart fs.m start : Int) - 65) / (step : Int) + 65)),
          65 ≤ x ∧ x < (sliceM (clampStart fs.m start) (clampEnd fs.m stop) step : Int) + 65
        intro x hx
        rw [hmapc] at hx
        obtain ⟨z, hz2, rfl⟩ := List.mem_map.mp hx
        obtain ⟨hq0, hqlt⟩ := hqb z hz2
        exact ⟨by omega, by omega⟩

theorem fsSetSlice_some (fs rep : fockstate) (l : List Int) (hc : fs.code = some l)
    (start stop : Int) :
    fsSetSlice fs rep start stop =
      if sliceM (clampStart fs.m start) (clampEnd fs.m stop) 1 ≠ rep.m
      then .error (.invalidArgument ("invalid fockstate to replace in slice"))
      else if fs.n - (l.filter (slicePred (clampStart fs.m start) (clampEnd fs.m stop) 1)).length
              + rep.n = 0
      then .ok ⟨fs.m, 0, some []⟩
      else .ok ⟨fs.m,
        fs.n - (l.filter (slicePred (clampStart fs.m start) (clampEnd fs.m stop) 1)).length
          + rep.n,
        some (l.takeWhile (fun b => decide (b < (clampStart fs.m start : Int) + 65)) ++
              (rep.code.getD []).map (fun b => toByte (b + (clampStart fs.m start : Int))) ++
              ((l.dropWhile (fun b => decide (b < (clampStart fs.m start : Int) + 65))).dropWhile
                 (fun b => decide (b < (clampEnd fs.m stop : Int) + 65))))⟩ := by
  simp only [fsSetSlice, hc]

theorem fsSetSlice_wf (fs rep c : fockstate) (start stop : Int) (hm63 : fs.m ≤ 63)
    (hwf : fswf fs) (hwr : fswf rep) (hrep : rep.code ≠ none ∨ rep.n = 0)
    (h : fsSetSlice fs rep start stop = .ok c) : fswf c := by
  cases hc : fs.code with
  | none => unfold fsSetSlice at h; rw [hc] at h; cases h
  | some l =>
    obtain ⟨hlen, hsort, hbnd⟩ := fswf_some fs l hc hwf
    have hlr : (rep.code.getD []).length = rep.n ∧ List.Sorted (· ≤ ·) (rep.code.getD []) ∧
        ∀ b ∈ rep.code.getD [], 65 ≤ b ∧ b < (rep.m : Int) + 65 := by
      cases hcr : rep.code with
      | none =>
        rcases hrep with hne | hzero
        · exact absurd hcr hne
        · simp [hzero]
      | some lr =>
        obtain ⟨h1, h2, h3⟩ := fswf_some rep lr hcr hwr
        simpa using ⟨h1, h2, h3⟩
    obtain ⟨hlrlen, hlrsort, hlrbnd⟩ := hlr
    rw [fsSetSlice_some fs rep l hc start stop] at h
    by_cases hm : sliceM (clampStart fs.m start) (clampEnd fs.m stop) 1 ≠ rep.m
    · rw [if_pos hm] at h; cases h
    · rw [if_neg hm] at h
      push_neg at hm
      rw [sliceM_one] at hm
      by_cases hn0 : fs.n -
          (l.filter (slicePred (clampStart fs.m start) (clampEnd fs.m stop) 1)).length
          + rep.n = 0
      · rw [if_pos hn0] at h
        injection h with h'
        subst h'
        exact ⟨rfl, List.sorted_nil, by simp⟩
      · rw [if_neg hn0] at h
        injection h with h'
        subst h'
        rw [slicePred_one]
        rw [slicePred_one] at hn0
        have hEm : clampEnd fs.m stop ≤ fs.m := clampEnd_le fs.m stop
        have hmaprep : (rep.code.getD []).map
              (fun b => toByte (b + (clampStart fs.m start : Int))) =
            (rep.code.getD []).map (fun b => b + (clampStart fs.m start : Int)) := by
          apply List.map_congr_left
          intro b hb
          have := hlrbnd b hb
          exact toByte_eq_self _ (by omega) (by omega)
        have htake := sorted_takeWhile_lt l ((clampStart fs.m start : Int) + 65) hsort
        have hdrop1 := sorted_dropWhile_lt l ((clampStart fs.m start : Int) + 65) hsort
        have hdrop2 := sorted_dropWhile_lt (l.filter (fun b =>
            decide ((clampStart fs.m start : Int) + 65 ≤ b)))
            ((clampEnd fs.m stop : Int) + 65) (hsort.filter _)
        have hupperfix : (l.filter (fun b =>
              decide ((clampStart fs.m start : Int) + 65 ≤ b))).filter
              (fun b => decide ((clampEnd fs.m stop : Int) + 65 ≤ b)) =
            l.filter (fun b => decide ((clampStart fs.m start : Int) + 65 ≤ b) &&
              decide ((clampEnd fs.m stop : Int) + 65 ≤ b)) := by
          rw [List.filter_filter]
          apply List.filter_congr
          intro x hx
          rw [Bool.and_comm]
        have hsplit := sorted_three_split l ((clampStart fs.m start : Int) + 65)
          ((clampEnd fs.m stop : Int) + 65) hsort
        have hlensplit : l.length =
            (l.filter (fun b => decide (b < (clampStart fs.m start : Int) + 65))).length +
            (l.filter (fun b => decide ((clampStart fs.m start : Int) + 65 ≤ b) &&
              decide (b < (clampEnd fs.m stop : Int) + 65))).length +
            (l.filter (fun b => decide ((clampStart fs.m start : Int) + 65 ≤ b) &&
              decide ((clampEnd fs.m stop : Int) + 65 ≤ b))).length := by
          conv_lhs => rw [hsplit]
          simp only [List.length_append]
        refine ⟨?_, ?_, ?_⟩
        · show (l.takeWhile (fun b => decide (b < (clampStart fs.m start : Int) + 65)) ++
              (rep.code.getD []).map (fun b => toByte (b + (clampStart fs.m start : Int))) ++
              ((l.dropWhile (fun b => decide (b < (clampStart fs.m start : Int) + 65))).dropWhile
                 (fun b => decide (b < (clampEnd fs.m stop : Int) + 65)))).length = _
          rw [htake, hdrop1, hdrop2, hupperfix]
          simp only [List.length_append, List.length_map, hlrlen]
          omega
        · show List.Sorted (· ≤ ·)
            (l.takeWhile (fun b => decide (b < (clampStart fs.m start : Int) + 65)) ++
              (rep.code.getD []).map (fun b => toByte (b + (clampStart fs.m start : Int))) ++
              ((l.dropWhile (fun b => decide (b < (clampStart fs.m start : Int) + 65))).dropWhile
                 (fun b => decide (b < (clampEnd fs.m stop : Int) + 65))))
          rw [htake, hdrop1, hdrop2, hupperfix, hmaprep]
          rw [List.Sorted, List.pairwise_append]
          refine ⟨?_, ?_, ?_⟩
          · rw [List.pairwise_append]
            refine ⟨(hsort.filter _), ?_, ?_⟩
            · exact List.pairwise_map.mpr (hlrsort.imp (fun hxy => by omega))
            · intro x hx y hy
              obtain ⟨z, hz, rfl⟩ := List.mem_map.mp hy
              have hxf := (List.mem_filter.mp hx).2
              simp only [decide_eq_true_eq] at hxf
              have hzb := hlrbnd z hz
              omega
          · exact (hsort.filter _)
          · intro x hx y hy
            have hyf := (List.mem_filter.mp hy).2
            simp only [Bool.and_eq_true, decide_eq_true_eq] at hyf
            rcases List.mem_append.mp hx with hx | hx
            · have hxf := (List.mem_filter.mp hx).2
              simp only [decide_eq_true_eq] at hxf
              omega
            · obtain ⟨z, hz, rfl⟩ := List.mem_map.mp hx
              have hzb := hlrbnd z hz
              omega
        · show ∀ x ∈ l.takeWhile (fun b => decide (b < (clampStart fs.m start : Int) + 65)) ++
              (rep.code.getD []).map (fun b => toByte (b + (clampStart fs.m start : Int))) ++
              ((l.dropWhile (fun b => decide (b < (clampStart fs.m start : Int) + 65))).dropWhile
                 (fun b => decide (b < (clampEnd fs.m stop : Int) + 65))),
            65 ≤ x ∧ x < (fs.m : Int) + 65
          rw [htake, hdrop1, hdrop2, hupperfix, hmaprep]
          intro x hx
          rcases List.mem_append.mp hx with hx | hx
          · rcases List.mem_append.mp hx with hx | hx
            · exact hbnd x (List.mem_of_mem_filter hx)
            · obtain ⟨z, hz, rfl⟩ := List.mem_map.mp hx
              have hzb := hlrbnd z hz
              exact ⟨by omega, by omega⟩
          · exact hbnd x (List.mem_of_mem_filter hx)

theorem parseTerms_sum : ∀ fuel s fsv n fsv' n' r,
    parseTerms fuel s fsv n = .ok (fsv', n', r) → n = fsv.sum → n' = fsv'.sum := by
  intro fuel
  induction fuel with
  | zero =>
    intro s fsv n fsv' n' r h
    simp [parseTerms] at h
  | succ fuel ih =>
    intro s fsv n fsv' n' r h hn
    simp only [parseTerms] at h
    split at h
    · simp only [Except.ok.injEq, Prod.mk.injEq] at h
      obtain ⟨rfl, rfl, rfl⟩ := h
      exact hn
    · split at h
      · simp only [Except.ok.injEq, Prod.mk.injEq] at h
        obtain ⟨rfl, rfl, rfl⟩ := h
        exact hn
      · split at h
        · cases h
        · rename_i total s3 hps
          exact ih _ _ _ _ _ _ h (by simp [hn])

theorem parse_wf (str : List Char) (fs : fockstate) (h : parse str = .ok fs)
    (hm63 : fs.m ≤ 63) : fswf fs := by
  simp only [parse] at h
  split at h
  · cases h
  · split at h
    · cases h
    · split at h
      · cases h
      · rename_i fsv n s2 hpt
        have hsum : n = fsv.sum :=
          parseTerms_sum _ _ _ _ _ _ _ hpt (by simp)
        split at h
        · cases h
        · split at h
          · cases h
          · split at h
            · cases h
            · split at h
              · injection h with h'
                subst h'
                trivial
              · injection h with h'
                subst h'
                have hm' : fsv.length ≤ 63 := hm63
                refine ⟨?_, codeOfVectFrom_sorted fsv 0 (by omega), ?_⟩
                · show (codeOfVect fsv).length = n
                  unfold codeOfVect
                  rw [codeOfVectFrom_length fsv 0, hsum]
                · intro x hx
                  have := codeOfVectFrom_mem fsv 0 (by omega) x hx
                  show 65 ≤ x ∧ x < (fsv.length : Int) + 65
                  omega

/-- Counterexample to claim C8 as stated: the constructor from an
occupation vector with a particle in mode 63 stores the wrapped byte
`char(63 + 'A') = -128`, which decodes to no mode of `[0, 64)`; the
invariant that every buffer entry encodes a mode in range is violated. -/
theorem C8_counterexample :
    fockstateOfVect (List.replicate 63 0 ++ [1]) = ⟨64, 1, some [-128]⟩ ∧
    ¬ fswf ⟨64, 1, some [-128]⟩ := by
  refine ⟨by decide, ?_⟩
  rintro ⟨-, -, hb⟩
  have h := (hb (-128) (List.mem_singleton.mpr rfl)).1
  omega

/-- Claim C8, amended: every modelled state-producing operation —
construction from an occupation vector, parsing, copy/assignment,
successor, tensor product, slice (any step ≥ 1; the source loop does not
terminate for step ≤ 0) and `set_slice` — yields states satisfying the
invariant set, under the char-safety bound `m ≤ 63` on the produced mode
count (for the constructor: at most 63 modes; for the product: the mode
counts add up to at most 63), where no stored byte `char(mode + 'A')`
wraps: a present buffer has length `n` (so `n` is the sum of the per-mode
occupations), is non-decreasing, and every byte encodes a mode in
`[0, m)`; an Undefined result carries no buffer.  For `set_slice` the
replacement is additionally required to be defined or particle-free: an
Undefined replacement with `n > 0` makes the source dereference a null
buffer (undefined behaviour). -/
theorem C8_amended_invariant_preservation :
    (∀ v : List Nat, v.length ≤ 63 → fswf (fockstateOfVect v)) ∧
    (∀ str fs, parse str = .ok fs → fs.m ≤ 63 → fswf fs) ∧
    (∀ fs, fswf fs → fswf (fsCopy fs)) ∧
    (∀ fs fs', fs.m ≤ 63 → fswf fs → fsSucc fs = .ok fs' → fswf fs') ∧
    (∀ a b c, a.m + b.m ≤ 63 → fswf a → fswf b → fsMul a b = .ok c → fswf c) ∧
    (∀ fs c start stop step, fs.m ≤ 63 → 1 ≤ step → fswf fs →
      fsSlice fs start stop step = .ok c → fswf c) ∧
    (∀ fs rep c start stop, fs.m ≤ 63 → fswf fs → fswf rep → (rep.code ≠ none ∨ rep.n = 0) →
      fsSetSlice fs rep start stop = .ok c → fswf c) := by
  refine ⟨fswf_ofVect, parse_wf, ?_, ?_, ?_, ?_, ?_⟩
  · intro fs hw
    exact hw
  · intro fs fs' hm63 hw h
    exact fsSucc_wf fs fs' hm63 hw h
  · intro a b c hm63 hwa hwb h
    exact fsMul_wf a b c hm63 hwa hwb h
  · intro fs c start stop step hm63 hstep hw h
    exact fsSlice_wf fs c start stop step hm63 hstep hw h
  · intro fs rep c start stop hm63 hwf hwr hrep h
    exact fsSetSlice_wf fs rep c start stop hm63 hwf hwr hrep h

/-- Witness for the amended C8 at concrete inputs built around `|2,0,1>`
(buffer bytes `[65, 65, 67]`). -/
theorem C8_amended_invariant_preservation_witness :
    fswf (fockstateOfVect [2, 0, 1]) ∧
    fswf ⟨3, 3, some [65, 65, 67]⟩ ∧
    fswf (fsCopy ⟨2, 1, some [65]⟩) ∧
    fswf ⟨3, 3, some [65, 66, 66]⟩ ∧
    fswf ⟨4, 3, some [65, 66, 68]⟩ ∧
    fswf ⟨2, 1, some [66]⟩ ∧
    fswf ⟨3, 3, some [65, 65, 67]⟩ :=
  ⟨C8_amended_invariant_preservation.1 [2, 0, 1] (by decide),
   C8_amended_invariant_preservation.2.1 ('|' :: '2' :: ',' :: '0' :: ',' :: '1' :: '>' :: [])
     ⟨3, 3, some [65, 65, 67]⟩ (by decide) (by decide),
   C8_amended_invariant_preservation.2.2.1 ⟨2, 1, some [65]⟩ ⟨rfl, by decide, by decide⟩,
   C8_amended_invariant_preservation.2.2.2.1 ⟨3, 3, some [65, 65, 67]⟩ ⟨3, 3, some [65, 66, 66]⟩
     (by decide) ⟨rfl, by decide, by decide⟩ (by decide),
   C8_amended_invariant_preservation.2.2.2.2.1 ⟨2, 2, some [65, 66]⟩ ⟨2, 1, some [66]⟩
     ⟨4, 3, some [65, 66, 68]⟩ (by decide) ⟨rfl, by decide, by decide⟩
     ⟨rfl, by decide, by decide⟩ (by decide),
   C8_amended_invariant_preservation.2.2.2.2.2.1 ⟨3, 3, some [65, 65, 67]⟩ ⟨2, 1, some [66]⟩
     1 3 1 (by decide) (by decide) ⟨rfl, by decide, by decide⟩ (by decide),
   C8_amended_invariant_preservation.2.2.2.2.2.2 ⟨3, 3, some [65, 65, 67]⟩ ⟨2, 1, some [66]⟩
     ⟨3, 3, some [65, 65, 67]⟩ 1 3 (by decide) ⟨rfl, by decide, by decide⟩
     ⟨rfl, by decide, by decide⟩ (Or.inl (by simp)) (by decide)⟩

theorem commaLoop_replicate (t : Nat) : ∀ mm,
    commaLoop (List.replicate t ',' ++ ['>']) mm = (mm + t, ['>']) := by
  induction t with
  | zero => intro mm; simp [commaLoop]
  | succ t ih =>
    intro mm
    rw [List.replicate_succ, List.cons_append]
    show commaLoop (',' :: (List.replicate t ',' ++ ['>'])) mm = (mm + (t + 1), ['>'])
    rw [commaLoop, if_neg (by decide), if_pos rfl, ih (mm + 1)]
    have : mm + 1 + t = mm + (t + 1) := by omega
    rw [this]

/-- Claim C3, amended: for every `k ≥ 1`, a bracketed body of exactly `k`
bare commas parses to an Undefined state with no particle data whose mode
count is `k + 1` (one more than the comma count: the comma loop of
`_parse_str` starts at `_m = 1`). -/
theorem C3_amended_comma_mode_count (k : Nat) (hk : 1 ≤ k) :
    parse ('|' :: (List.replicate k ',' ++ ['>'])) = .ok ⟨k + 1, 0, none⟩ := by
  obtain ⟨j, rfl⟩ : ∃ j, k = j + 1 := ⟨k - 1, by omega⟩
  rw [List.replicate_succ, List.cons_append]
  have hcl : commaLoop (',' :: (List.replicate j ',' ++ ['>'])) 1 = (1 + (j + 1), ['>']) := by
    rw [← List.cons_append, ← List.replicate_succ]
    exact commaLoop_replicate (j + 1) 1
  simp [parse, parseTerms, skipBlanks, hcl]
  omega

/-- Witness for the amended C3 at `k = 1`: `"|,>"` parses to an Undefined
state with mode count 2. -/
theorem C3_amended_comma_mode_count_witness :
    1 ≤ 1 ∧ parse ('|' :: (List.replicate 1 ',' ++ ['>'])) = .ok ⟨2, 0, none⟩ :=
  ⟨by decide, C3_amended_comma_mode_count 1 (by decide)⟩
